import Mathlib

/-!
# Verification of the spiddy language pipeline

A shallow embedding, in Lean 4, of the core of the `spiddy` repository: the
lexer (`lexer/src/lib.rs`), the recursive-descent parser with follow-set
diagnostics (`parser/src/lib.rs`), the name-to-de-Bruijn lowering
(`ast/src/de_bruijn.rs`), the two evaluators (`eval/src/lib.rs`), and the
span layer (`span/src/lib.rs`).

Rust `usize`/`u32`/`u64` values are modelled as `Nat`; where the source
performs 64-bit wrapping addition the model reduces modulo `2 ^ 64`.
Rust panics and out-of-fuel are modelled with `Option`/dedicated
constructors as noted at each definition.  Possibly non-terminating
loops and recursions (`eval`, `eval_loop`, the parser) are modelled with
an explicit fuel parameter.
-/

namespace Spiddy

/-! ## De Bruijn expressions (`ast/src/de_bruijn.rs` and the IR consumed by
`eval/src/lib.rs`: constructors `Var`, `Lam`, `App` from the `ast` crate,
plus `U64` and `AddU64` which the evaluator's `match` arms require). -/

inductive Expr where
  | Var (n : Nat)
  | Lam (body : Expr)
  | App (f : Expr) (x : Expr)
  | U64 (n : Nat)
  | AddU64 (l : Expr) (r : Expr)
deriving DecidableEq, Repr

/-- `Value` from `eval/src/value.rs`: an integer or a closure whose
environment is an ordered sequence of values (heap references are
replaced by the values themselves; Rust compares them structurally via
`PartialEq`). -/
inductive Value where
  | U64 (n : Nat)
  | Closure (env : List Value) (body : Expr)

/-- `env[env.len() - n - 1]` from `eval`; `none` models the Rust panic on
an out-of-bounds index (when `n ≥ env.len()` the `usize` subtraction
underflows and indexing panics). -/
def envLookup (env : List Value) (n : Nat) : Option Value :=
  if n < env.length then env.get? (env.length - n - 1) else none

/-- The direct recursive evaluator `eval` from `eval/src/lib.rs`, with a
fuel parameter (the Rust recursion can diverge); `none` is "out of fuel
or panic" (panics: a non-closure in function position, a non-`U64`
operand of `AddU64`, an out-of-range variable).  `l_n + r_n` on `u64`
is 64-bit wrapping addition, modelled as addition modulo `2 ^ 64`. -/
def eval : Nat → List Value → Expr → Option Value
  | 0, _, _ => none
  | fuel+1, env, e =>
    match e with
    | .Var n => envLookup env n
    | .App l r =>
      match eval fuel env l with
      | some (.Closure next body) =>
        match eval fuel env r with
        | some rv => eval fuel (next ++ [rv]) body
        | none => none
      | _ => none
    | .Lam body => some (.Closure env body)
    | .U64 n => some (.U64 n)
    | .AddU64 l r =>
      match eval fuel env l with
      | some (.U64 a) =>
        match eval fuel env r with
        | some (.U64 b) => some (.U64 ((a + b) % 2 ^ 64))
        | _ => none
      | _ => none

/-! ## The iterative CEK evaluator `eval_loop` (`eval/src/lib.rs`).
The `Hole` marker of the Rust `Cont` variants carries no data and is
omitted; the continuation stack is a list whose head is the top
(`Vec::push`/`Vec::pop` operate on the same end). -/

/-- `Cont` from `eval/src/lib.rs`. -/
inductive Cont where
  | AppL (env : List Value) (r : Expr)
  | AppR (env : List Value) (body : Expr)
  | AddU64L (env : List Value) (r : Expr)
  | AddU64R (l : Nat)

/-- `Code` from `eval/src/lib.rs`. -/
inductive Code where
  | Input (e : Expr)
  | Output (v : Value)

/-- The mutable loop state of `eval_loop`: `code`, `env`, `cont`. -/
structure MState where
  code : Code
  env : List Value
  cont : List Cont

inductive StepRes where
  | next (s : MState)
  | done (v : Value)
  | stuck

/-- One iteration of `eval_loop` from an `Input` code, following the
`Input(expr)` match arms. -/
def stepIn : Expr → List Value → List Cont → StepRes
  | .U64 n, env, k => .next ⟨.Output (.U64 n), env, k⟩
  | .Var n, env, k =>
    match envLookup env n with
    | some v => .next ⟨.Output v, env, k⟩
    | none => .stuck
  | .App l r, env, k => .next ⟨.Input l, env, .AppL env r :: k⟩
  | .Lam body, env, k => .next ⟨.Output (.Closure env body), env, k⟩
  | .AddU64 l r, env, k => .next ⟨.Input l, env, .AddU64L env r :: k⟩

/-- One iteration of `eval_loop` from an `Output` code, following the
`Output(value)` match arms; `stuck` models the panics on a non-closure
or non-integer, `done` the `return`. -/
def stepOut : Value → List Value → List Cont → StepRes
  | v, _, [] => .done v
  | v, _, .AppL rEnv r :: k =>
    match v with
    | .Closure lEnv body => .next ⟨.Input r, rEnv, .AppR lEnv body :: k⟩
    | _ => .stuck
  | v, _, .AppR nextEnv body :: k => .next ⟨.Input body, nextEnv ++ [v], k⟩
  | v, _, .AddU64L rEnv r :: k =>
    match v with
    | .U64 l => .next ⟨.Input r, rEnv, .AddU64R l :: k⟩
    | _ => .stuck
  | v, env, .AddU64R l :: k =>
    match v with
    | .U64 r => .next ⟨.Output (.U64 ((l + r) % 2 ^ 64)), env, k⟩
    | _ => .stuck

/-- One iteration of the `loop` in `eval_loop`. -/
def step : MState → StepRes
  | ⟨.Input e, env, k⟩ => stepIn e env k
  | ⟨.Output v, env, k⟩ => stepOut v env k

/-- Iterate `step` for at most `fuel` iterations. -/
def run : Nat → MState → Option Value
  | 0, _ => none
  | fuel+1, s =>
    match step s with
    | .next s' => run fuel s'
    | .done v => some v
    | .stuck => none

/-- `eval_loop(heap, expr)`: run the machine from
`env = [], code = Input(expr), cont = []`. -/
def evalLoop (fuel : Nat) (e : Expr) : Option Value :=
  run fuel ⟨.Input e, [], []⟩

/-- The well-scoping invariant of the de Bruijn IR: under `d` enclosing
`Lam` nodes, every `Var i` satisfies `i < d`. -/
def wellScoped (d : Nat) : Expr → Bool
  | .Var i => i < d
  | .Lam body => wellScoped (d+1) body
  | .App f x => wellScoped d f && wellScoped d x
  | .U64 _ => true
  | .AddU64 l r => wellScoped d l && wellScoped d r

/-! ## The named AST (`ast/src/lib.rs`) and the lowering to de Bruijn
indices (`ast/src/de_bruijn.rs`). -/

namespace Ast

/-- `ast::Expr`: the named surface AST. -/
inductive Expr where
  | Ident (name : String)
  | Lam (arg : String) (body : Expr)
  | App (f : Expr) (x : Expr)
  | Parens (inner : Expr)
deriving DecidableEq, Repr

end Ast

/-- The `HashMap<&str, Vec<usize>>` of `__from_ast`, as a total function
(`[]` = key absent; the map's stored vectors are never empty).  The list
is kept in `Vec` order: index `0` is the element the source calls
`value[0]`, `Vec::push`/`pop`/`last` act on the list's final element. -/
def VarMap := String → List Nat

/-- Map lookup-or-replace used to model `insert`/`remove`/`pop`. -/
def mapUpdate (m : VarMap) (x : String) (l : List Nat) : VarMap :=
  fun y => if y = x then l else m y

/-- `value[0] += 1` on one stored vector. -/
def bumpFirst : List Nat → List Nat
  | [] => []
  | h :: t => (h+1) :: t

/-- `value[0] -= 1` on one stored vector (`usize` subtraction; in every
reachable state the entry is positive, see `fromAstAux_closed`). -/
def decFirst : List Nat → List Nat
  | [] => []
  | h :: t => (h-1) :: t

/-- `for value in var_map.values_mut() { value[0] += 1 }`. -/
def mapBump (m : VarMap) : VarMap := fun y => bumpFirst (m y)

/-- `for value in var_map.values_mut() { value[0] -= 1 }`. -/
def mapDec (m : VarMap) : VarMap := fun y => decFirst (m y)

/-- `__from_ast` from `ast/src/de_bruijn.rs`, threading the mutable
`var_map`; `none` models the `unwrap` panics on an unbound identifier.
In the `Lam` arm: bump `value[0]` of every entry, push `0` onto the
argument's vector (creating it if absent, `vec![0]`), recurse, then
pop the argument's vector (removing it when its length is `≤ 1`) and
decrement `value[0]` of every remaining entry. -/
def fromAstAux : VarMap → Ast.Expr → Option (Expr × VarMap)
  | m, .Parens inner => fromAstAux m inner
  | m, .Ident x =>
    match (m x).getLast? with
    | some i => some (.Var i, m)
    | none => none
  | m, .App l r =>
    match fromAstAux m l with
    | some (l', m1) =>
      match fromAstAux m1 r with
      | some (r', m2) => some (.App l' r', m2)
      | none => none
    | none => none
  | m, .Lam arg body =>
    match fromAstAux (mapUpdate (mapBump m) arg (mapBump m arg ++ [0])) body with
    | some (b', m2) =>
      some (.Lam b',
        mapDec (mapUpdate m2 arg
          (if (m2 arg).length ≤ 1 then [] else (m2 arg).dropLast)))
    | none => none

/-- `from_ast`: run `__from_ast` with an empty `var_map`. -/
def fromAst (e : Ast.Expr) : Option Expr :=
  (fromAstAux (fun _ => []) e).map Prod.fst

/-- Modelled from the spec (§9, "Name resolution without globals"): the
naive reference lowering that keeps a `Vec<&str>` stack of enclosing
binder names and resolves each identifier by scanning from the
innermost binder outward to the nearest binder of that name.  This is
the spec-side definition that claim C2 compares `from_ast` against. -/
def scanIdx (x : String) : List String → Option Nat
  | [] => none
  | y :: ys => if y = x then some 0 else (scanIdx x ys).map (· + 1)

/-- Modelled from the spec (§9): reference lowering over a stack of
binder names, innermost first. -/
def naiveLower (stk : List String) : Ast.Expr → Option Expr
  | .Ident x => (scanIdx x stk).map .Var
  | .Lam arg body => (naiveLower (arg :: stk) body).map .Lam
  | .App f a =>
    match naiveLower stk f, naiveLower stk a with
    | some f', some a' => some (.App f' a')
    | _, _ => none
  | .Parens inner => naiveLower stk inner

/-- "Named AST without free identifiers": every identifier occurrence is
bound by an enclosing `Lam` (relative to an ambient binder list). -/
def closedUnder (bs : List String) : Ast.Expr → Bool
  | .Ident x => decide (x ∈ bs)
  | .Lam arg body => closedUnder (arg :: bs) body
  | .App f a => closedUnder bs f && closedUnder bs a
  | .Parens inner => closedUnder bs inner

/-! ## The lexer (`lexer/src/lib.rs`).  The source string is a list of
characters; offsets count bytes (`Offset` is a `u32`, modelled as `Nat`),
and a character contributes `len_utf8` bytes (`Char.utf8Size`). -/

/-- Byte length of a character list (`str::len` on the corresponding
UTF-8 slice). -/
def byteLen (cs : List Char) : Nat := (cs.map Char.utf8Size).sum

/-- `Span { start, length }` from `span/src/lib.rs` (`Offset`s as `Nat`). -/
structure Span where
  start : Nat
  length : Nat
deriving DecidableEq, Repr

/-- `TokenData` from `lexer/src/lib.rs`; `Ident` carries the slice of the
source it denotes. -/
inductive TokenData where
  | Space
  | Newline
  | Backslash
  | Ident (s : List Char)
  | RArrow
  | LParen
  | RParen
  | Equals
  | Eof
deriving DecidableEq, Repr

/-- `Token { data, span }`. -/
structure Token where
  data : TokenData
  span : Span
deriving DecidableEq, Repr

/-- `TokenType` from `lexer/src/lib.rs`. -/
inductive TokenType where
  | Space
  | Newline
  | Backslash
  | Ident
  | RArrow
  | LParen
  | RParen
  | Equals
  | Eof
deriving DecidableEq, Repr

/-- `TokenType::to_usize`: the stable small integer used for bitsets. -/
def TokenType.toUsize : TokenType → Nat
  | .Space => 0
  | .Newline => 1
  | .Backslash => 2
  | .Ident => 3
  | .RArrow => 4
  | .LParen => 5
  | .RParen => 6
  | .Equals => 7
  | .Eof => 8

/-- `Token::token_type`. -/
def tokenType (t : Token) : TokenType :=
  match t.data with
  | .Space => .Space
  | .Newline => .Newline
  | .Backslash => .Backslash
  | .Ident _ => .Ident
  | .RArrow => .RArrow
  | .LParen => .LParen
  | .RParen => .RParen
  | .Equals => .Equals
  | .Eof => .Eof

/-- `lexer::Error`. -/
inductive LexError where
  | Unexpected (c : Char) (offset : Nat)
  | UnexpectedEof (offset : Nat)
deriving DecidableEq, Repr

/-- The `Lexer` state: the remaining characters (`current` is the head)
and the current global byte offset. -/
structure LexState where
  chars : List Char
  offset : Nat
deriving DecidableEq, Repr

/-- `is_ident_start`: `char::is_ascii_lowercase`. -/
def isIdentStart (c : Char) : Bool := 'a' ≤ c && c ≤ 'z'

/-- `is_ident_body`: `char::is_ascii_alphanumeric`. -/
def isIdentBody (c : Char) : Bool :=
  ('a' ≤ c && c ≤ 'z') || ('A' ≤ c && c ≤ 'Z') || ('0' ≤ c && c ≤ '9')

/-- `NextToken` from `lexer/src/lib.rs`; the `Token` arm additionally
records the advanced lexer state. -/
inductive NextToken where
  | Done
  | Token (t : Token) (st : LexState)
  | Error (e : LexError)
deriving DecidableEq, Repr

/-- `Lexer::next_token`.  Each case consumes its characters and emits a
span from the start offset to the offset after consumption, exactly as
`emit`/`consume_ident_body` do; single-character tokens are ASCII, so
their spans have length 1, `->` has length 2, and an identifier covers
its starting character plus its `is_ident_body` run. -/
def nextToken : LexState → NextToken
  | ⟨[], _⟩ => .Done
  | ⟨c :: rest, off⟩ =>
    if c = '\n' then .Token ⟨.Newline, ⟨off, 1⟩⟩ ⟨rest, off + 1⟩
    else if c = ' ' then .Token ⟨.Space, ⟨off, 1⟩⟩ ⟨rest, off + 1⟩
    else if c = '\\' then .Token ⟨.Backslash, ⟨off, 1⟩⟩ ⟨rest, off + 1⟩
    else if c = '-' then
      match rest with
      | c2 :: rest2 =>
        if c2 = '>' then .Token ⟨.RArrow, ⟨off, 2⟩⟩ ⟨rest2, off + 2⟩
        else .Error (.Unexpected c2 (off + 1))
      | [] => .Error (.UnexpectedEof (off + 1))
    else if c = '(' then .Token ⟨.LParen, ⟨off, 1⟩⟩ ⟨rest, off + 1⟩
    else if c = ')' then .Token ⟨.RParen, ⟨off, 1⟩⟩ ⟨rest, off + 1⟩
    else if c = '=' then .Token ⟨.Equals, ⟨off, 1⟩⟩ ⟨rest, off + 1⟩
    else if isIdentStart c then
      .Token
        ⟨.Ident (c :: rest.takeWhile isIdentBody),
          ⟨off, 1 + byteLen (rest.takeWhile isIdentBody)⟩⟩
        ⟨rest.dropWhile isIdentBody, off + 1 + byteLen (rest.takeWhile isIdentBody)⟩
    else .Error (.Unexpected c off)

/-- `Lexer::tokenize`: loop `next_token`, collecting tokens; on `Done`
append the `Eof` token with a 1-byte point span at the final offset; on
an error, return it.  The loop is given explicit fuel (`none` = fuel
exhausted); since every emitted token consumes at least one character,
`chars.length + 1` rounds always suffice, which the totality theorem
for `tokenize` below establishes by never producing `none`. -/
def tokenizeFuel : Nat → LexState → Option (Except LexError (List Token))
  | 0, _ => none
  | fuel+1, st =>
    match nextToken st with
    | .Done => some (.ok [⟨.Eof, ⟨st.offset, 1⟩⟩])
    | .Token t st' =>
      match tokenizeFuel fuel st' with
      | some (.ok ts) => some (.ok (t :: ts))
      | some (.error e) => some (.error e)
      | none => none
    | .Error e => some (.error e)

/-- `tokenize` on a whole input string, starting at offset `0`. -/
def tokenize (input : List Char) : Option (Except LexError (List Token)) :=
  tokenizeFuel (input.length + 1) ⟨input, 0⟩

/-- The spans of `toks`, concatenated in order, exactly cover the byte
range `[pos, stop)`. -/
def covers : Nat → List Token → Nat → Bool
  | pos, [], stop => pos == stop
  | pos, t :: ts, stop =>
    (t.span.start == pos) && covers (t.span.start + t.span.length) ts stop

/-! ## The parser (`parser/src/lib.rs`).  `ExpectedSet` is a `BitSet`
over `TokenType::to_usize`, modelled as a `Nat` bitmask; the `follows`
stack is a list whose head is the top.  The parser functions are given
explicit fuel (`fuel` result = fuel exhausted) because `parse_expr` is
recursive; `panic` models `current_token` running out of input. -/

/-- `ExpectedSet::new`. -/
def esNew : Nat := 0

/-- `ExpectedSet::insert`. -/
def esInsert (s : Nat) (tt : TokenType) : Nat := s ||| (1 <<< tt.toUsize)

/-- `ExpectedSet::union`. -/
def esUnion (s t : Nat) : Nat := s ||| t

/-- `ExpectedSet::contains`. -/
def esContains (s : Nat) (tt : TokenType) : Bool := s.testBit tt.toUsize

/-- The parser state: the remaining tokens (`current` is the head of
`toks`, `None` is the empty list), the `expected` set, and the
`follows` stack. -/
structure PState where
  toks : List Token
  expected : Nat
  follows : List Nat
deriving DecidableEq, Repr

/-- `parser::Error`. -/
inductive PError where
  | UnexpectedEof (offset : Nat)
  | Unexpected (actual : Token) (expected : Nat)
deriving DecidableEq, Repr

/-- Outcome of a parser function: a value or a parse error (each with
the updated state), the `current_token` panic, or fuel exhaustion. -/
inductive PRes (α : Type) where
  | ok (a : α) (s : PState)
  | err (e : PError) (s : PState)
  | panic
  | fuel
deriving DecidableEq, Repr

/-- Sequencing that mirrors Rust control flow: errors, panics and fuel
exhaustion propagate, `ok` continues with the value and state. -/
def pbind {α β : Type} (r : PRes α) (f : α → PState → PRes β) : PRes β :=
  match r with
  | .ok a s => f a s
  | .err e s => .err e s
  | .panic => .panic
  | .fuel => .fuel

/-- `Parser::expect`: insert `tt` into `expected`; panic when out of
input; on a match consume, and clear `expected` only when `consume`
returned a next token (i.e. the remainder is non-empty). -/
def expect (tt : TokenType) (s : PState) : PRes (Option Token) :=
  match s.toks with
  | [] => .panic
  | t :: rest =>
    if tokenType t = tt then
      match rest with
      | _ :: _ => .ok (some t) ⟨rest, esNew, s.follows⟩
      | [] => .ok (some t) ⟨rest, esInsert s.expected tt, s.follows⟩
    else .ok none ⟨t :: rest, esInsert s.expected tt, s.follows⟩

/-- `Parser::unexpected_with`: report the current token against
`expected ∪ extra` (the state itself is left unchanged). -/
def unexpectedWith {α : Type} (extra : Nat) (s : PState) : PRes α :=
  match s.toks with
  | [] => .panic
  | t :: _ => .err (.Unexpected t (esUnion s.expected extra)) s

/-- `Parser::expect_ident`: `expect(Ident)` and extract the payload. -/
def expectIdent (s : PState) : PRes (Option (List Char)) :=
  pbind (expect .Ident s) fun mt s1 =>
    match mt with
    | some t =>
      match t.data with
      | .Ident str => .ok (some str) s1
      | _ => .ok none s1
    | none => .ok none s1

/-- `Parser::require`. -/
def require (tt : TokenType) (s : PState) : PRes Token :=
  pbind (expect tt s) fun mt s1 =>
    match mt with
    | some t => .ok t s1
    | none => unexpectedWith esNew s1

/-- `Parser::require_ident`. -/
def requireIdent (s : PState) : PRes (List Char) :=
  pbind (expectIdent s) fun mi s1 =>
    match mi with
    | some str => .ok str s1
    | none => unexpectedWith esNew s1

/-- Is the current token `Space` or `Newline`? -/
def isSpaceTok (t : Token) : Bool :=
  match t.data with
  | .Space => true
  | .Newline => true
  | _ => false

/-- The token-consuming loop of `ignore_spaces` (panics — `none` — when
it runs out of tokens while skipping). -/
def skipSpaces : List Token → Option (List Token)
  | [] => none
  | t :: rest => if isSpaceTok t then skipSpaces rest else some (t :: rest)

/-- `Parser::ignore_spaces` (the returned count is discarded by every
caller and omitted). -/
def ignoreSpaces (s : PState) : PRes Unit :=
  match skipSpaces s.toks with
  | none => .panic
  | some ts => .ok () ⟨ts, s.expected, s.follows⟩

/-- `with_follows!`: push a follow set before a sub-parse. -/
def pushFollows (fb : Nat) (s : PState) : PState :=
  ⟨s.toks, s.expected, fb :: s.follows⟩

/-- The paired pop of `with_follows!`, applied on every exit path. -/
def popFollows (s : PState) : PState :=
  ⟨s.toks, s.expected, s.follows.tail⟩

/-- Pop the follow stack on both the success and the error path of a
scoped sub-parse, as the `with_follows!` expansion does. -/
def popRes {α : Type} : PRes α → PRes α
  | .ok a s => .ok a (popFollows s)
  | .err e s => .err e (popFollows s)
  | .panic => .panic
  | .fuel => .fuel

/-- `with_follows_extended!`: the base of the pushed set is the current
top of `follows` when there is one. -/
def extendedFollows (fb : Nat) (s : PState) : Nat :=
  match s.follows.head? with
  | none => fb
  | some last => esUnion last fb

/-- `ATOM_START_SET = {Ident, LParen}`. -/
def ATOM_START_SET : Nat := esInsert (esInsert esNew .Ident) .LParen

/-- `EXPECTED_RPAREN = {RParen}`. -/
def EXPECTED_RPAREN : Nat := esInsert esNew .RParen

mutual

/-- `Parser::try_parse_atom`: `ident` or `'(' expr ')'`. -/
def tryParseAtom : Nat → PState → PRes (Option Ast.Expr)
  | 0, _ => .fuel
  | fuel+1, s =>
    pbind (expectIdent s) fun mident s1 =>
      match mident with
      | some str =>
        pbind (ignoreSpaces s1) fun _ s2 =>
          .ok (some (.Ident (String.mk str))) s2
      | none =>
        pbind (expect .LParen s1) fun mlp s2 =>
          match mlp with
          | some _ =>
            pbind (ignoreSpaces s2) fun _ s3 =>
            pbind (popRes (parseExpr fuel (pushFollows EXPECTED_RPAREN s3)))
              fun inner s4 =>
            pbind (require .RParen s4) fun _ s5 =>
            pbind (ignoreSpaces s5) fun _ s6 =>
            .ok (some (.Parens inner)) s6
          | none => .ok none s2

/-- `Parser::try_parse_lam`: `'\' ident '->' expr`. -/
def tryParseLam : Nat → PState → PRes (Option Ast.Expr)
  | 0, _ => .fuel
  | fuel+1, s =>
    pbind (expect .Backslash s) fun mbs s1 =>
      match mbs with
      | some _ =>
        pbind (ignoreSpaces s1) fun _ s2 =>
        pbind (requireIdent s2) fun arg s3 =>
        pbind (ignoreSpaces s3) fun _ s4 =>
        pbind (require .RArrow s4) fun _ s5 =>
        pbind (ignoreSpaces s5) fun _ s6 =>
        pbind (parseExpr fuel s6) fun body s7 =>
        .ok (some (.Lam (String.mk arg) body)) s7
      | none => .ok none s1

/-- `Parser::try_parse_app`: `atom atom*`; the first atom, then the
repetition loop. -/
def tryParseApp : Nat → PState → PRes (Option Ast.Expr)
  | 0, _ => .fuel
  | fuel+1, s =>
    pbind (popRes (tryParseAtom fuel
        (pushFollows (extendedFollows ATOM_START_SET s) s))) fun matom s1 =>
      match matom with
      | some head => appLoop fuel head s1
      | none => .ok none s1

/-- The `loop` inside `try_parse_app`: parse further atoms; when no atom
starts, succeed if the current token is in the top follow set, and
otherwise report `expected ∪ follows.top` (or `expected` alone when the
follow stack is empty). -/
def appLoop : Nat → Ast.Expr → PState → PRes (Option Ast.Expr)
  | 0, _, _ => .fuel
  | fuel+1, acc, s =>
    pbind (popRes (tryParseAtom fuel
        (pushFollows (extendedFollows ATOM_START_SET s) s))) fun matom s1 =>
      match matom with
      | some e => appLoop fuel (.App acc e) s1
      | none =>
        match s1.toks with
        | [] => .panic
        | tok :: _ =>
          match s1.follows.head? with
          | none => unexpectedWith esNew s1
          | some fb =>
            if esContains fb (tokenType tok) then .ok (some acc) s1
            else unexpectedWith fb s1

/-- `Parser::parse_expr`: `lambda | app`. -/
def parseExpr : Nat → PState → PRes Ast.Expr
  | 0, _ => .fuel
  | fuel+1, s =>
    pbind (tryParseLam fuel s) fun mlam s1 =>
      match mlam with
      | some e => .ok e s1
      | none =>
        pbind (tryParseApp fuel s1) fun mapp s2 =>
          match mapp with
          | some e => .ok e s2
          | none => unexpectedWith esNew s2

end

/-- `Parser::parse_expr_eof`: `parse_expr` under the initial follow set
`{Eof}`. -/
def parseExprEof (fuel : Nat) (s : PState) : PRes Ast.Expr :=
  popRes (parseExpr fuel (pushFollows (esInsert esNew .Eof) s))

/-- `Parser::new` on a token vector: current = first token, empty
`expected`, empty `follows`. -/
def initPState (ts : List Token) : PState := ⟨ts, esNew, []⟩

/-- Lex then parse a source string (the composition used by the repo's
parser tests): `none` when lexing fails. -/
def parseString (input : String) (fuel : Nat) : Option (PRes Ast.Expr) :=
  match tokenize input.toList with
  | some (.ok ts) => some (parseExprEof fuel (initPState ts))
  | _ => none

/-- Project a parse outcome to its error, if any. -/
def resErr {α : Type} : PRes α → Option PError
  | .err e _ => some e
  | _ => none

/-- Project a parse outcome to its value, if any. -/
def resOk {α : Type} : PRes α → Option α
  | .ok a _ => some a
  | _ => none

/-- The token list contains an `Eof` token. -/
def hasEof (ts : List Token) : Bool :=
  ts.any fun t => tokenType t = .Eof

/-! ## The span layer (`span/src/lib.rs`): `SourceFile::get_line` and
the `SourceFiles` registry with `new_source_file`/`get_by_offset`. -/

/-- `span::SourceFile` (content as characters; offsets in bytes). -/
structure SourceFile where
  name : String
  start : Nat
  content : List Char
deriving DecidableEq, Repr

/-- `span::Line`. -/
structure Line where
  offset : Nat
  number : Nat
  content : List Char
deriving DecidableEq, Repr

/-- `is_newline`. -/
def isNewline (c : Char) : Bool := c = '\n'

/-- The character loop of `SourceFile::get_line`, over the remaining
characters with the mutable state `(pos, line_start, line_end, number,
found)`; returns the final `(line_start, line_end, number, found)`
(the loop `break`s at the first newline after `found` is set). -/
def getLineLoop (off : Nat) :
    List Char → Nat → Nat → Nat → Nat → Bool → Nat × Nat × Nat × Bool
  | [], _, lineStart, lineEnd, number, found =>
    (lineStart, lineEnd, number, found)
  | c :: cs, pos, lineStart, lineEnd, number, found =>
    if found then
      -- pos += if newline then 0 else len_utf8; line_end = pos; break on newline
      if isNewline c then (lineStart, pos, number, true)
      else getLineLoop off cs (pos + c.utf8Size) lineStart (pos + c.utf8Size)
        number true
    else
      -- found = pos ≥ off; pos += len_utf8; on newline bump number, line_start
      if isNewline c then
        getLineLoop off cs (pos + c.utf8Size) (pos + c.utf8Size) lineEnd
          (number + 1) (decide (off ≤ pos) || found)
      else
        getLineLoop off cs (pos + c.utf8Size) lineStart lineEnd number
          (decide (off ≤ pos) || found)

/-- Drop `n` bytes from the front of a character list; `none` when `n`
is not a character boundary or exceeds the string (a Rust slice-index
panic). -/
def dropBytes : List Char → Nat → Option (List Char)
  | cs, 0 => some cs
  | [], _+1 => none
  | c :: cs, n+1 =>
    if c.utf8Size ≤ n+1 then dropBytes cs (n+1 - c.utf8Size) else none

/-- Take the first `n` bytes of a character list; `none` when `n` is
not a character boundary or exceeds the string. -/
def takeBytes : List Char → Nat → Option (List Char)
  | _, 0 => some []
  | [], _+1 => none
  | c :: cs, n+1 =>
    if c.utf8Size ≤ n+1 then (takeBytes cs (n+1 - c.utf8Size)).map (c :: ·)
    else none

/-- `&content[a..b]`: `none` models the Rust panic when `a > b` or a
bound is out of range / not a character boundary. -/
def sliceBytes (cs : List Char) (a b : Nat) : Option (List Char) :=
  if a ≤ b then (dropBytes cs a).bind fun cs' => takeBytes cs' (b - a)
  else none

/-- `SourceFile::get_line`.  `none` models the panics: the `u32`
underflow of `offset.subtract(start)`, the slice panic of
`content[line_start..line_end]`, and the explicit
"no line containing" panic when `found` stays false. -/
def getLine (f : SourceFile) (offset : Nat) : Option Line :=
  if offset < f.start then none
  else
    match getLineLoop (offset - f.start) f.content 0 0 0 1 false with
    | (lineStart, lineEnd, number, true) =>
      (sliceBytes f.content lineStart lineEnd).map fun content =>
        ⟨f.start + lineStart, number, content⟩
    | (_, _, _, false) => none

/-- `span::SourceFiles`. -/
structure SourceFiles where
  next_addr : Nat
  files : List SourceFile
deriving DecidableEq, Repr

/-- `SourceFiles::new_source_file` (via `__new_source_file` with
`size = content.len()`): the new file starts at `next_addr`, which
advances by the content's byte length. -/
def newSourceFile (sf : SourceFiles) (name : String) (content : List Char) :
    SourceFiles :=
  ⟨sf.next_addr + byteLen content, sf.files ++ [⟨name, sf.next_addr, content⟩]⟩

/-- A registry built by a sequence of `new_source_file` calls starting
from `SourceFiles::new()`. -/
def buildFiles (regs : List (String × List Char)) : SourceFiles :=
  regs.foldl (fun sf r => newSourceFile sf r.1 r.2) ⟨0, []⟩

/-- The file list of such a registry, described recursively (proved
equal to `buildFiles` in `buildFiles_eq`). -/
def buildFilesFrom (addr : Nat) : List (String × List Char) → List SourceFile
  | [] => []
  | (n, c) :: rest => ⟨n, addr, c⟩ :: buildFilesFrom (addr + byteLen c) rest

/-- The final `next_addr` of such a registry. -/
def totalSize (addr : Nat) : List (String × List Char) → Nat
  | [] => addr
  | (_, c) :: rest => totalSize (addr + byteLen c) rest

/-- `slice::binary_search_by_key(&offset, |file| file.start)`: the
classic midpoint binary search with early return on an equal key
(`inl` = `Ok`, `inr` = `Err`(insertion point)); with duplicate keys it
returns whichever equal element a midpoint probe hits first.  Fuel is
`files.length + 1` at the call site, which always suffices since the
interval shrinks every iteration (`none` = fuel exhausted, proved
unreachable); the `get? = none` arm is unreachable because every probe
index is below `right ≤ files.length`. -/
def bsGo : Nat → List SourceFile → Nat → Nat → Nat → Option (Sum Nat Nat)
  | 0, _, _, _, _ => none
  | fuel+1, files, key, left, right =>
    if left < right then
      match files.get? (left + (right - left) / 2) with
      | none => some (.inr left)
      | some f =>
        if f.start < key then
          bsGo fuel files key (left + (right - left) / 2 + 1) right
        else if key < f.start then
          bsGo fuel files key left (left + (right - left) / 2)
        else some (.inl (left + (right - left) / 2))
    else some (.inr left)

/-- `SourceFiles::get_by_offset`: `none` models the explicit
out-of-bounds panic, and — for `Err(0)` — the `usize` underflow of
`ix - 1` followed by the out-of-range indexing panic. -/
def get_by_offset (sf : SourceFiles) (offset : Nat) : Option SourceFile :=
  if sf.next_addr ≤ offset then none
  else
    match bsGo (sf.files.length + 1) sf.files offset 0 sf.files.length with
    | some (.inl ix) => sf.files.get? ix
    | some (.inr ix) => if ix = 0 then none else sf.files.get? (ix - 1)
    | none => none

/-! ### Equivalence of `eval` and `eval_loop` (claim C1)

Roadmap: fuel-monotonicity for both evaluators, irrelevance of the `env`
register in `Output` states, a simulation of `eval` by the machine, and
an unwinding of terminating machine runs back into `eval`. -/

theorem run_succ (fuel : Nat) (s : MState) :
    run (fuel+1) s = match step s with
      | .next s' => run fuel s'
      | .done v => some v
      | .stuck => none := rfl

theorem eval_app (fuel : Nat) (env : List Value) (l r : Expr) :
    eval (fuel+1) env (.App l r) =
      match eval fuel env l with
      | some (.Closure next body) =>
        match eval fuel env r with
        | some rv => eval fuel (next ++ [rv]) body
        | none => none
      | _ => none := rfl

theorem eval_add (fuel : Nat) (env : List Value) (l r : Expr) :
    eval (fuel+1) env (.AddU64 l r) =
      match eval fuel env l with
      | some (.U64 a) =>
        match eval fuel env r with
        | some (.U64 b) => some (.U64 ((a + b) % 2 ^ 64))
        | _ => none
      | _ => none := rfl

theorem eval_mono : ∀ {n : Nat} {env : List Value} {e : Expr} {v : Value},
    eval n env e = some v → eval (n+1) env e = some v := by
  intro n
  induction n with
  | zero => intro env e v h; simp [eval] at h
  | succ n ih =>
    intro env e v h
    cases e with
    | Var i => exact h
    | Lam body => exact h
    | U64 i => exact h
    | App l r =>
      rw [eval_app] at h
      rw [eval_app]
      split at h
      case _ nx body heq =>
        rw [ih heq]
        dsimp only
        split at h
        case _ rv hr =>
          rw [ih hr]
          dsimp only
          exact ih h
        case _ => simp at h
      case _ x hne => simp at h
    | AddU64 l r =>
      rw [eval_add] at h
      rw [eval_add]
      split at h
      case _ a heq =>
        rw [ih heq]
        dsimp only
        split at h
        case _ b hr =>
          rw [ih hr]
          dsimp only
          exact h
        case _ x hne => simp at h
      case _ x hne => simp at h

theorem eval_le {m n : Nat} {env : List Value} {e : Expr} {v : Value}
    (hmn : m ≤ n) (h : eval m env e = some v) : eval n env e = some v := by
  induction hmn with
  | refl => exact h
  | step _ ih => exact eval_mono ih

theorem run_output_irrel : ∀ (n : Nat) (v : Value) (k : List Cont)
    (env1 env2 : List Value),
    run n ⟨.Output v, env1, k⟩ = run n ⟨.Output v, env2, k⟩ := by
  intro n
  induction n with
  | zero => intros; rfl
  | succ n ih =>
    intro v k env1 env2
    cases k with
    | nil => rfl
    | cons f k =>
      cases f with
      | AppL rEnv r => cases v <;> rfl
      | AppR nxt body => rfl
      | AddU64L rEnv r => cases v <;> rfl
      | AddU64R l =>
        cases v with
        | Closure e b => rfl
        | U64 r =>
          rw [run_succ, run_succ]
          simp only [step, stepOut]
          exact ih _ _ _ _

/-- Simulation: if `eval` produces `v`, then from `Input e` the machine
reaches `Output v` and continues as the continuation dictates. -/
theorem eval_to_machine : ∀ (n : Nat) (env : List Value) (e : Expr) (v : Value),
    eval n env e = some v →
    ∀ (k : List Cont) (m : Nat) (res : Value),
      run m ⟨.Output v, env, k⟩ = some res →
      ∃ N, run N ⟨.Input e, env, k⟩ = some res := by
  intro n
  induction n with
  | zero => intro env e v h; simp [eval] at h
  | succ n ih =>
    intro env e v h k m res hm
    cases e with
    | Var i =>
      have h' : envLookup env i = some v := h
      exact ⟨m+1, by rw [run_succ]; simp only [step, stepIn, h']; exact hm⟩
    | U64 i =>
      have h' : some (Value.U64 i) = some v := h
      cases h'
      exact ⟨m+1, by rw [run_succ]; simp only [step, stepIn]; exact hm⟩
    | Lam body =>
      have h' : some (Value.Closure env body) = some v := h
      cases h'
      exact ⟨m+1, by rw [run_succ]; simp only [step, stepIn]; exact hm⟩
    | App l r =>
      rw [eval_app] at h
      split at h
      case _ nx body heql =>
        split at h
        case _ rv heqr =>
          have hm' : run m ⟨.Output v, nx ++ [rv], k⟩ = some res := by
            rw [run_output_irrel m v k (nx ++ [rv]) env]; exact hm
          obtain ⟨N3, hN3⟩ := ih _ _ _ h _ _ _ hm'
          have hstep3 : run (N3+1) ⟨.Output rv, env, .AppR nx body :: k⟩ = some res := by
            rw [run_succ]; simp only [step, stepOut]; exact hN3
          obtain ⟨N2, hN2⟩ := ih _ _ _ heqr _ _ _ hstep3
          have hstep2 : run (N2+1)
              ⟨.Output (.Closure nx body), env, .AppL env r :: k⟩ = some res := by
            rw [run_succ]; simp only [step, stepOut]; exact hN2
          obtain ⟨N1, hN1⟩ := ih _ _ _ heql _ _ _ hstep2
          exact ⟨N1+1, by rw [run_succ]; simp only [step, stepIn]; exact hN1⟩
        case _ => simp at h
      case _ x hne => simp at h
    | AddU64 l r =>
      rw [eval_add] at h
      split at h
      case _ a heql =>
        split at h
        case _ b heqr =>
          have h' : some (Value.U64 ((a + b) % 2 ^ 64)) = some v := h
          cases h'
          have hstep3 : run (m+1) ⟨.Output (.U64 b), env, .AddU64R a :: k⟩ = some res := by
            rw [run_succ]; simp only [step, stepOut]; exact hm
          obtain ⟨N2, hN2⟩ := ih _ _ _ heqr _ _ _ hstep3
          have hstep2 : run (N2+1)
              ⟨.Output (.U64 a), env, .AddU64L env r :: k⟩ = some res := by
            rw [run_succ]; simp only [step, stepOut]; exact hN2
          obtain ⟨N1, hN1⟩ := ih _ _ _ heql _ _ _ hstep2
          exact ⟨N1+1, by rw [run_succ]; simp only [step, stepIn]; exact hN1⟩
        case _ x hne => simp at h
      case _ x hne => simp at h

/-- Unwinding: a terminating machine run from `Input e` factors through an
`eval` result for `e` followed by a shorter run from the `Output`. -/
theorem machine_to_eval : ∀ (n : Nat) (e : Expr) (env : List Value)
    (k : List Cont) (res : Value),
    run n ⟨.Input e, env, k⟩ = some res →
    ∃ (m : Nat) (v : Value) (n' : Nat),
      eval m env e = some v ∧ n' < n ∧ run n' ⟨.Output v, env, k⟩ = some res := by
  intro n
  induction n using Nat.strong_induction_on with
  | _ n ih =>
    intro e env k res h
    cases n with
    | zero => simp [run] at h
    | succ n0 =>
      cases e with
      | Var i =>
        rw [run_succ] at h
        simp only [step, stepIn] at h
        cases hl : envLookup env i with
        | none => rw [hl] at h; simp at h
        | some v =>
          rw [hl] at h
          exact ⟨1, v, n0, hl, Nat.lt_succ_self n0, h⟩
      | U64 i =>
        rw [run_succ] at h
        simp only [step, stepIn] at h
        exact ⟨1, .U64 i, n0, rfl, Nat.lt_succ_self n0, h⟩
      | Lam body =>
        rw [run_succ] at h
        simp only [step, stepIn] at h
        exact ⟨1, .Closure env body, n0, rfl, Nat.lt_succ_self n0, h⟩
      | App l r =>
        rw [run_succ] at h
        simp only [step, stepIn] at h
        obtain ⟨m1, v1, n1, he1, hlt1, hr1⟩ :=
          ih n0 (Nat.lt_succ_self n0) _ _ _ _ h
        cases n1 with
        | zero => simp [run] at hr1
        | succ n1p =>
          rw [run_succ] at hr1
          cases v1 with
          | U64 a => simp [step, stepOut] at hr1
          | Closure nx body =>
            simp only [step, stepOut] at hr1
            obtain ⟨m2, v2, n2, he2, hlt2, hr2⟩ :=
              ih n1p (by omega) _ _ _ _ hr1
            cases n2 with
            | zero => simp [run] at hr2
            | succ n2p =>
              rw [run_succ] at hr2
              simp only [step, stepOut] at hr2
              obtain ⟨m3, v3, n3, he3, hlt3, hr3⟩ :=
                ih n2p (by omega) _ _ _ _ hr2
              refine ⟨max m1 (max m2 m3) + 1, v3, n3, ?_, by omega, ?_⟩
              · rw [eval_app]
                rw [eval_le (Nat.le_max_left _ _) he1]
                dsimp only
                rw [eval_le (le_trans (Nat.le_max_left _ _) (Nat.le_max_right _ _)) he2]
                dsimp only
                exact eval_le (le_trans (Nat.le_max_right _ _) (Nat.le_max_right _ _)) he3
              · rw [run_output_irrel n3 v3 k env (nx ++ [v2])]
                exact hr3
      | AddU64 l r =>
        rw [run_succ] at h
        simp only [step, stepIn] at h
        obtain ⟨m1, v1, n1, he1, hlt1, hr1⟩ :=
          ih n0 (Nat.lt_succ_self n0) _ _ _ _ h
        cases n1 with
        | zero => simp [run] at hr1
        | succ n1p =>
          rw [run_succ] at hr1
          cases v1 with
          | Closure nx body => simp [step, stepOut] at hr1
          | U64 a =>
            simp only [step, stepOut] at hr1
            obtain ⟨m2, v2, n2, he2, hlt2, hr2⟩ :=
              ih n1p (by omega) _ _ _ _ hr1
            cases n2 with
            | zero => simp [run] at hr2
            | succ n2p =>
              rw [run_succ] at hr2
              cases v2 with
              | Closure nx2 body2 => simp [step, stepOut] at hr2
              | U64 b =>
                simp only [step, stepOut] at hr2
                refine ⟨max m1 m2 + 1, .U64 ((a + b) % 2 ^ 64), n2p, ?_, by omega, hr2⟩
                rw [eval_add]
                rw [eval_le (Nat.le_max_left _ _) he1]
                dsimp only
                rw [eval_le (Nat.le_max_right _ _) he2]

/-- Claim C1: for every closed, well-scoped de Bruijn expression, the
direct recursive evaluator and the iterative CEK evaluator return the
same `Value`s (each returning `v` for some fuel exactly when the other
does). -/
theorem eval_eval_loop_agree (e : Expr) (h : wellScoped 0 e = true) (v : Value) :
    (∃ n, eval n [] e = some v) ↔ (∃ n, evalLoop n e = some v) := by
  clear h
  constructor
  · rintro ⟨n, hn⟩
    have hout : run 1 ⟨.Output v, [], []⟩ = some v := rfl
    obtain ⟨N, hN⟩ := eval_to_machine n [] e v hn [] 1 v hout
    exact ⟨N, hN⟩
  · rintro ⟨n, hn⟩
    obtain ⟨m, u, n', he, _, hr⟩ := machine_to_eval n e [] [] v hn
    have huv : u = v := by
      cases n' with
      | zero => simp [run] at hr
      | succ n'' =>
        rw [run_succ] at hr
        simp only [step, stepOut] at hr
        exact Option.some.inj hr
    rw [huv] at he
    exact ⟨m, he⟩

/-- Witness for C1 at the closed, well-scoped input `(λ.0) 5`. -/
theorem eval_eval_loop_agree_witness :
    wellScoped 0 (.App (.Lam (.Var 0)) (.U64 5)) = true ∧
    ((∃ n, eval n [] (.App (.Lam (.Var 0)) (.U64 5)) = some (.U64 5)) ↔
      (∃ n, evalLoop n (.App (.Lam (.Var 0)) (.U64 5)) = some (.U64 5))) :=
  ⟨by decide, eval_eval_loop_agree _ (by decide) _⟩

/-- C2: the shift-per-binder lowering disagrees with the naive reference
lowering (and with correct shadowing) on
`λx. λx. λy. x`: `__from_ast` only ever increments `value[0]`, the
*bottom* of each identifier's stack, so the inner `x` binding is never
shifted when `λy` is entered, and the occurrence of `x` resolves to
index `0` (the `y` binder) instead of `1`. -/
theorem from_ast_shadowing_bug :
    fromAst (.Lam "x" (.Lam "x" (.Lam "y" (.Ident "x")))) =
      some (.Lam (.Lam (.Lam (.Var 0)))) ∧
    naiveLower [] (.Lam "x" (.Lam "x" (.Lam "y" (.Ident "x")))) =
      some (.Lam (.Lam (.Lam (.Var 1)))) ∧
    closedUnder [] (.Lam "x" (.Lam "x" (.Lam "y" (.Ident "x")))) = true ∧
    fromAst (.Lam "x" (.Lam "x" (.Lam "y" (.Ident "x")))) ≠
      naiveLower [] (.Lam "x" (.Lam "x" (.Lam "y" (.Ident "x")))) := by
  refine ⟨?_, by decide, by decide, ?_⟩ <;> decide

theorem bumpFirst_eq_nil {l : List Nat} : bumpFirst l = [] ↔ l = [] := by
  cases l <;> simp [bumpFirst]

theorem decFirst_bumpFirst (l : List Nat) : decFirst (bumpFirst l) = l := by
  cases l <;> simp [bumpFirst, decFirst]

theorem bumpFirst_bound {l : List Nat} {d : Nat} (h : ∀ v ∈ l, v < d) :
    ∀ v ∈ bumpFirst l, v < d + 1 := by
  cases l with
  | nil => simp [bumpFirst]
  | cons a t =>
    intro v hv
    rcases List.mem_cons.mp hv with h1 | h2
    · have := h a (List.mem_cons_self a t)
      omega
    · have := h v (List.mem_cons_of_mem a h2)
      omega

theorem getLast?_mem' : ∀ {l : List Nat} {a : Nat}, l.getLast? = some a → a ∈ l := by
  intro l
  induction l with
  | nil => intro a h; simp at h
  | cons b t ih =>
    intro a h
    cases t with
    | nil => simp_all
    | cons c u =>
      rw [List.getLast?_cons_cons] at h
      exact List.mem_cons_of_mem b (ih h)

theorem mapUpdate_same (m : VarMap) (x : String) (l : List Nat) :
    mapUpdate m x l x = l := by
  simp [mapUpdate]

theorem mapUpdate_other (m : VarMap) (x : String) (l : List Nat) (y : String)
    (h : y ≠ x) : mapUpdate m x l y = m y := by
  simp [mapUpdate, h]

theorem dropLast_snoc (l : List Nat) (a : Nat) : (l ++ [a]).dropLast = l := by
  simp

/-- On an input with no free identifiers, `__from_ast` succeeds, restores
its `var_map`, and every index it stores stays below the binder depth,
so the emitted term is well-scoped. -/
theorem fromAstAux_closed : ∀ (e : Ast.Expr) (m : VarMap) (bs : List String) (d : Nat),
    closedUnder bs e = true →
    (∀ x v, v ∈ m x → v < d) →
    (∀ x, m x ≠ [] ↔ x ∈ bs) →
    ∃ e', fromAstAux m e = some (e', m) ∧ wellScoped d e' = true := by
  intro e
  induction e with
  | Ident x =>
    intro m bs d hc hinv hdom
    have hx : x ∈ bs := of_decide_eq_true hc
    have hne : m x ≠ [] := (hdom x).mpr hx
    cases hl : (m x).getLast? with
    | none => exact absurd (List.getLast?_eq_none_iff.mp hl) hne
    | some i =>
      refine ⟨.Var i, by simp [fromAstAux, hl], ?_⟩
      have : i < d := hinv x i (getLast?_mem' hl)
      simpa [wellScoped]
  | Parens inner ih =>
    intro m bs d hc hinv hdom
    exact ih m bs d hc hinv hdom
  | App f a ihf iha =>
    intro m bs d hc hinv hdom
    rw [closedUnder, Bool.and_eq_true] at hc
    obtain ⟨f', hf, hwf⟩ := ihf m bs d hc.1 hinv hdom
    obtain ⟨a', ha, hwa⟩ := iha m bs d hc.2 hinv hdom
    refine ⟨.App f' a', by simp [fromAstAux, hf, ha], ?_⟩
    simp [wellScoped, hwf, hwa]
  | Lam arg body ih =>
    intro m bs d hc hinv hdom
    set m1 : VarMap := mapUpdate (mapBump m) arg (mapBump m arg ++ [0]) with hm1
    have hinv1 : ∀ x v, v ∈ m1 x → v < d + 1 := by
      intro x v hv
      rw [hm1, mapUpdate] at hv
      by_cases hxa : x = arg
      · simp only [hxa, if_pos rfl] at hv
        rcases List.mem_append.mp hv with h1 | h2
        · exact bumpFirst_bound (hinv arg) v h1
        · simp at h2; omega
      · simp only [if_neg hxa] at hv
        exact bumpFirst_bound (hinv x) v hv
    have hdom1 : ∀ x, m1 x ≠ [] ↔ x ∈ arg :: bs := by
      intro x
      rw [hm1, mapUpdate]
      by_cases hxa : x = arg
      · simp [hxa]
      · simp only [if_neg hxa, mapBump, List.mem_cons]
        rw [bumpFirst_eq_nil.ne]
        constructor
        · intro h; exact Or.inr ((hdom x).mp h)
        · rintro (h | h)
          · exact absurd h hxa
          · exact (hdom x).mpr h
    obtain ⟨b', hb, hwb⟩ := ih m1 (arg :: bs) (d+1) hc hinv1 hdom1
    refine ⟨.Lam b', ?_, by simpa [wellScoped] using hwb⟩
    rw [fromAstAux, hb]
    dsimp only
    have hrestore :
        mapDec (mapUpdate m1 arg
          (if (m1 arg).length ≤ 1 then [] else (m1 arg).dropLast)) = m := by
      funext y
      show decFirst (mapUpdate m1 arg
        (if (m1 arg).length ≤ 1 then [] else (m1 arg).dropLast) y) = m y
      by_cases hya : y = arg
      · subst hya
        rw [mapUpdate_same]
        have harg : m1 y = bumpFirst (m y) ++ [0] := by
          rw [hm1, mapUpdate_same]; rfl
        rw [harg]
        cases hmy : m y with
        | nil => rfl
        | cons a t =>
          have hlen : ¬ ((bumpFirst (a :: t) ++ [0]).length ≤ 1) := by
            simp [bumpFirst]
          rw [if_neg hlen, dropLast_snoc, decFirst_bumpFirst]
      · rw [mapUpdate_other _ _ _ _ hya]
        have hmy : m1 y = bumpFirst (m y) := by
          rw [hm1, mapUpdate_other _ _ _ _ hya]; rfl
        rw [hmy, decFirst_bumpFirst]
    rw [hrestore]

/-- Claim C3: lowering a named AST without free identifiers succeeds and
the emitted de Bruijn term is well-scoped: every `Var i` sits under at
least `i+1` enclosing `Lam`s. -/
theorem from_ast_closed_well_scoped (e : Ast.Expr)
    (h : closedUnder [] e = true) :
    ∃ d, fromAst e = some d ∧ wellScoped 0 d = true := by
  obtain ⟨d', hf, hw⟩ :=
    fromAstAux_closed e (fun _ => []) [] 0 h
      (by intro x v hv; simp at hv) (by intro x; simp)
  exact ⟨d', by rw [fromAst, hf]; rfl, hw⟩

/-- Witness for C3 at the closed input `λx. x`. -/
theorem from_ast_closed_well_scoped_witness :
    ∃ d, fromAst (.Lam "x" (.Ident "x")) = some d ∧ wellScoped 0 d = true :=
  from_ast_closed_well_scoped _ (by decide)

/-- Claim C7: `AddU64` on `u64` operands is 64-bit unsigned modular
addition under both evaluators (no overflow trap), and the operation is
commutative and associative. -/
theorem addU64_modular_comm_assoc (a b c : Nat)
    (ha : a < 2 ^ 64) (hb : b < 2 ^ 64) (hc : c < 2 ^ 64) :
    eval 2 [] (.AddU64 (.U64 a) (.U64 b)) = some (.U64 ((a + b) % 2 ^ 64)) ∧
    evalLoop 6 (.AddU64 (.U64 a) (.U64 b)) = some (.U64 ((a + b) % 2 ^ 64)) ∧
    eval 2 [] (.AddU64 (.U64 a) (.U64 b)) =
      eval 2 [] (.AddU64 (.U64 b) (.U64 a)) ∧
    eval 3 [] (.AddU64 (.AddU64 (.U64 a) (.U64 b)) (.U64 c)) =
      eval 3 [] (.AddU64 (.U64 a) (.AddU64 (.U64 b) (.U64 c))) := by
  refine ⟨rfl, rfl, ?_, ?_⟩
  · show some (Value.U64 ((a + b) % 2 ^ 64)) =
      some (Value.U64 ((b + a) % 2 ^ 64))
    rw [Nat.add_comm]
  · show some (Value.U64 (((a + b) % 2 ^ 64 + c) % 2 ^ 64)) =
      some (Value.U64 ((a + (b + c) % 2 ^ 64) % 2 ^ 64))
    rw [Nat.mod_add_mod, Nat.add_mod_mod, Nat.add_assoc]

/-- Witness for C7 at `a = 1`, `b = 2`, `c = 3`. -/
theorem addU64_modular_comm_assoc_witness :
    eval 2 [] (.AddU64 (.U64 1) (.U64 2)) = some (.U64 ((1 + 2) % 2 ^ 64)) ∧
    evalLoop 6 (.AddU64 (.U64 1) (.U64 2)) = some (.U64 ((1 + 2) % 2 ^ 64)) ∧
    eval 2 [] (.AddU64 (.U64 1) (.U64 2)) =
      eval 2 [] (.AddU64 (.U64 2) (.U64 1)) ∧
    eval 3 [] (.AddU64 (.AddU64 (.U64 1) (.U64 2)) (.U64 3)) =
      eval 3 [] (.AddU64 (.U64 1) (.AddU64 (.U64 2) (.U64 3))) :=
  addU64_modular_comm_assoc 1 2 3 (by decide) (by decide) (by decide)

/-! ### Lexer totality (claim C4) -/

theorem byteLen_cons (c : Char) (cs : List Char) :
    byteLen (c :: cs) = c.utf8Size + byteLen cs := by
  simp [byteLen]

theorem byteLen_append (l1 l2 : List Char) :
    byteLen (l1 ++ l2) = byteLen l1 + byteLen l2 := by
  simp [byteLen]

theorem utf8Size_of_ascii {c : Char} (h : c ≤ 'z') : c.utf8Size = 1 := by
  have hv : c.val ≤ 122 := h
  have h2 : c.val ≤ 0x7F := UInt32.le_trans hv (by decide)
  unfold Char.utf8Size
  simp [h2]

theorem dropWhile_len_le (p : Char → Bool) (l : List Char) :
    (l.dropWhile p).length ≤ l.length := by
  induction l with
  | nil => simp [List.dropWhile]
  | cons c cs ih =>
    rw [List.dropWhile_cons]
    split
    · exact le_trans ih (Nat.le_succ _)
    · exact le_refl _

/-- Exhaustive description of one `next_token` step: it finishes exactly
at the end of input; or emits one token whose span starts at the current
offset and whose length is the number of bytes consumed; or fails with
`Unexpected` strictly inside the remaining input, or with
`UnexpectedEof` exactly at the end of input. -/
theorem nextToken_cases (st : LexState) :
    (nextToken st = .Done ∧ st.chars = []) ∨
    (∃ t st', nextToken st = .Token t st' ∧
      t.span.start = st.offset ∧
      st'.offset = st.offset + t.span.length ∧
      0 < t.span.length ∧
      st'.chars.length < st.chars.length ∧
      st.offset + byteLen st.chars = st'.offset + byteLen st'.chars) ∨
    (∃ c off, nextToken st = .Error (.Unexpected c off) ∧
      st.offset ≤ off ∧ off < st.offset + byteLen st.chars) ∨
    (∃ off, nextToken st = .Error (.UnexpectedEof off) ∧
      off = st.offset + byteLen st.chars) := by
  rcases st with ⟨cs, off⟩
  cases cs with
  | nil => exact Or.inl ⟨rfl, rfl⟩
  | cons c rest =>
    by_cases h1 : c = '\n'
    · subst h1
      exact Or.inr (Or.inl ⟨⟨.Newline, ⟨off, 1⟩⟩, ⟨rest, off + 1⟩, rfl, rfl,
        rfl, by show (0:Nat) < 1; decide,
        by show rest.length < ('\n' :: rest).length; simp,
        by show off + byteLen ('\n' :: rest) = (off + 1) + byteLen rest
           rw [byteLen_cons, show ('\n').utf8Size = 1 from rfl]; omega⟩)
    by_cases h2 : c = ' '
    · subst h2
      exact Or.inr (Or.inl ⟨⟨.Space, ⟨off, 1⟩⟩, ⟨rest, off + 1⟩, rfl, rfl,
        rfl, by show (0:Nat) < 1; decide,
        by show rest.length < (' ' :: rest).length; simp,
        by show off + byteLen (' ' :: rest) = (off + 1) + byteLen rest
           rw [byteLen_cons, show (' ').utf8Size = 1 from rfl]; omega⟩)
    by_cases h3 : c = '\\'
    · subst h3
      exact Or.inr (Or.inl ⟨⟨.Backslash, ⟨off, 1⟩⟩, ⟨rest, off + 1⟩, rfl, rfl,
        rfl, by show (0:Nat) < 1; decide,
        by show rest.length < ('\\' :: rest).length; simp,
        by show off + byteLen ('\\' :: rest) = (off + 1) + byteLen rest
           rw [byteLen_cons, show ('\\').utf8Size = 1 from rfl]; omega⟩)
    by_cases h4 : c = '-'
    · subst h4
      cases rest with
      | nil =>
        refine Or.inr (Or.inr (Or.inr ⟨off + 1, rfl, ?_⟩))
        show off + 1 = off + byteLen ['-']
        rw [byteLen_cons, show ('-').utf8Size = 1 from rfl]
        rfl
      | cons c2 rest2 =>
        by_cases h9 : c2 = '>'
        · subst h9
          exact Or.inr (Or.inl ⟨⟨.RArrow, ⟨off, 2⟩⟩, ⟨rest2, off + 2⟩, rfl,
            rfl, rfl, by show (0:Nat) < 2; decide,
            by show rest2.length < ('-' :: '>' :: rest2).length
               simp only [List.length_cons]; omega,
            by show off + byteLen ('-' :: '>' :: rest2) = (off + 2) + byteLen rest2
               rw [byteLen_cons, byteLen_cons, show ('-').utf8Size = 1 from rfl,
                 show ('>').utf8Size = 1 from rfl]
               omega⟩)
        · have hnt : nextToken ⟨'-' :: c2 :: rest2, off⟩ =
              .Error (.Unexpected c2 (off + 1)) := by
            have hr : nextToken ⟨'-' :: c2 :: rest2, off⟩ =
                if c2 = '>' then
                  .Token ⟨.RArrow, ⟨off, 2⟩⟩ ⟨rest2, off + 2⟩
                else .Error (.Unexpected c2 (off + 1)) := rfl
            rw [hr, if_neg h9]
          refine Or.inr (Or.inr (Or.inl ⟨c2, off + 1, hnt,
            by show off ≤ off + 1; omega, ?_⟩))
          show off + 1 < off + byteLen ('-' :: c2 :: rest2)
          rw [byteLen_cons, byteLen_cons, show ('-').utf8Size = 1 from rfl]
          have := Char.utf8Size_pos c2
          omega
    by_cases h5 : c = '('
    · subst h5
      exact Or.inr (Or.inl ⟨⟨.LParen, ⟨off, 1⟩⟩, ⟨rest, off + 1⟩, rfl, rfl,
        rfl, by show (0:Nat) < 1; decide,
        by show rest.length < ('(' :: rest).length; simp,
        by show off + byteLen ('(' :: rest) = (off + 1) + byteLen rest
           rw [byteLen_cons, show ('(').utf8Size = 1 from rfl]; omega⟩)
    by_cases h6 : c = ')'
    · subst h6
      exact Or.inr (Or.inl ⟨⟨.RParen, ⟨off, 1⟩⟩, ⟨rest, off + 1⟩, rfl, rfl,
        rfl, by show (0:Nat) < 1; decide,
        by show rest.length < (')' :: rest).length; simp,
        by show off + byteLen (')' :: rest) = (off + 1) + byteLen rest
           rw [byteLen_cons, show (')').utf8Size = 1 from rfl]; omega⟩)
    by_cases h7 : c = '='
    · subst h7
      exact Or.inr (Or.inl ⟨⟨.Equals, ⟨off, 1⟩⟩, ⟨rest, off + 1⟩, rfl, rfl,
        rfl, by show (0:Nat) < 1; decide,
        by show rest.length < ('=' :: rest).length; simp,
        by show off + byteLen ('=' :: rest) = (off + 1) + byteLen rest
           rw [byteLen_cons, show ('=').utf8Size = 1 from rfl]; omega⟩)
    by_cases h8 : isIdentStart c = true
    · have hnt : nextToken ⟨c :: rest, off⟩ =
          .Token
            ⟨.Ident (c :: rest.takeWhile isIdentBody),
              ⟨off, 1 + byteLen (rest.takeWhile isIdentBody)⟩⟩
            ⟨rest.dropWhile isIdentBody,
              off + 1 + byteLen (rest.takeWhile isIdentBody)⟩ := by
        simp only [nextToken, if_neg h1, if_neg h2, if_neg h3, if_neg h4,
          if_neg h5, if_neg h6, if_neg h7, if_pos h8]
      have hz : c ≤ 'z' := by
        have hand := (Bool.and_eq_true _ _).mp h8
        exact of_decide_eq_true (by exact_mod_cast hand.2)
      have hc1 : c.utf8Size = 1 := utf8Size_of_ascii hz
      have hsplit := congrArg byteLen
        (List.takeWhile_append_dropWhile (p := isIdentBody) (l := rest))
      rw [byteLen_append] at hsplit
      refine Or.inr (Or.inl ⟨_, _, hnt, rfl,
        by show off + 1 + byteLen (rest.takeWhile isIdentBody) =
             off + (1 + byteLen (rest.takeWhile isIdentBody))
           omega,
        by show 0 < 1 + byteLen (rest.takeWhile isIdentBody); omega, ?_, ?_⟩)
      · show (rest.dropWhile isIdentBody).length < (c :: rest).length
        simp only [List.length_cons]
        exact Nat.lt_succ_of_le (dropWhile_len_le _ _)
      · show off + byteLen (c :: rest) =
          (off + 1 + byteLen (rest.takeWhile isIdentBody)) +
            byteLen (rest.dropWhile isIdentBody)
        rw [byteLen_cons, hc1]
        omega
    · have hnt : nextToken ⟨c :: rest, off⟩ = .Error (.Unexpected c off) := by
        simp only [nextToken, if_neg h1, if_neg h2, if_neg h3, if_neg h4,
          if_neg h5, if_neg h6, if_neg h7, if_neg h8]
      refine Or.inr (Or.inr (Or.inl ⟨c, off, hnt, le_refl _, ?_⟩))
      show off < off + byteLen (c :: rest)
      rw [byteLen_cons]
      have := Char.utf8Size_pos c
      omega

/-- Totality of the fuelled tokenizer: with fuel exceeding the length of
the remaining input, it never exhausts fuel, and either returns tokens
whose spans tile the remaining bytes followed by the `Eof` sentinel, or
the single error described by claim C4. -/
theorem tokenizeFuel_total : ∀ (fuel : Nat) (st : LexState),
    st.chars.length < fuel →
    (∃ ts', tokenizeFuel fuel st =
        some (.ok (ts' ++ [⟨.Eof, ⟨st.offset + byteLen st.chars, 1⟩⟩])) ∧
      covers st.offset ts' (st.offset + byteLen st.chars) = true) ∨
    (∃ c off, tokenizeFuel fuel st = some (.error (.Unexpected c off)) ∧
      st.offset ≤ off ∧ off < st.offset + byteLen st.chars) ∨
    (∃ off, tokenizeFuel fuel st = some (.error (.UnexpectedEof off)) ∧
      off = st.offset + byteLen st.chars) := by
  intro fuel
  induction fuel with
  | zero => intro st h; omega
  | succ fuel ih =>
    intro st hlen
    rcases nextToken_cases st with ⟨hnt, hnil⟩ |
      ⟨t, st', hnt, hstart, hoff, hpos, hshrink, hcons⟩ |
      ⟨c, o, hnt, hlo, hhi⟩ | ⟨o, hnt, ho⟩
    · left
      refine ⟨[], ?_, ?_⟩
      · simp only [tokenizeFuel, hnt, hnil, List.nil_append]
        simp [byteLen]
      · rw [hnil]
        simp [covers, byteLen]
    · have hlt : st'.chars.length < fuel := by omega
      rcases ih st' hlt with ⟨ts', hok, hcov⟩ | ⟨c, o, herr, hlo, hhi⟩ |
        ⟨o, herr, ho⟩
      · left
        refine ⟨t :: ts', ?_, ?_⟩
        · simp only [tokenizeFuel, hnt, hok]
          rw [hcons]
          simp
        · simp only [covers, hstart, beq_self_eq_true, Bool.true_and]
          rw [← hoff, hcons]
          exact hcov
      · right; left
        refine ⟨c, o, by simp only [tokenizeFuel, hnt, herr], by omega, ?_⟩
        rw [hcons]
        exact hhi
      · right; right
        refine ⟨o, by simp only [tokenizeFuel, hnt, herr], ?_⟩
        rw [hcons]
        exact ho
    · right; left
      exact ⟨c, o, by simp only [tokenizeFuel, hnt], hlo, hhi⟩
    · right; right
      exact ⟨o, by simp only [tokenizeFuel, hnt], ho⟩

/-- Claim C4 (amended): for every input, `tokenize` either returns a
token list `ts' ++ [Eof]` where the `Eof` sentinel has a 1-byte point
span at the final offset and the concatenated spans of the tokens
before it exactly cover the input, or it returns a single `Unexpected`
error whose offset lies strictly within the input, or a single
`UnexpectedEof` error whose offset equals the input's byte length. -/
theorem tokenize_totality (input : List Char) :
    (∃ ts', tokenize input = some (.ok (ts' ++ [⟨.Eof, ⟨byteLen input, 1⟩⟩])) ∧
      covers 0 ts' (byteLen input) = true) ∨
    (∃ c off, tokenize input = some (.error (.Unexpected c off)) ∧
      off < byteLen input) ∨
    (∃ off, tokenize input = some (.error (.UnexpectedEof off)) ∧
      off = byteLen input) := by
  have h := tokenizeFuel_total (input.length + 1) ⟨input, 0⟩
    (Nat.lt_succ_self _)
  rcases h with ⟨ts', hok, hcov⟩ | ⟨c, o, he, _, hhi⟩ | ⟨o, he, ho⟩
  · left
    exact ⟨ts', by simpa [tokenize] using hok, by simpa using hcov⟩
  · right; left
    exact ⟨c, o, by simpa [tokenize] using he, by simpa using hhi⟩
  · right; right
    exact ⟨o, by simpa [tokenize] using he, by simpa using ho⟩

/-- Counterexample to claim C4 exactly as stated: on input `"-"` the
lexer fails with `UnexpectedEof` at offset 1, which does not lie within
the 1-byte input; and on the empty input the returned token list is the
lone `Eof` token, whose own 1-byte span does not coincide with the
(empty) input coverage. -/
theorem tokenize_claim_exact_counterexample :
    (tokenize ['-'] = some (.error (.UnexpectedEof 1)) ∧
      ¬ (1 < byteLen ['-'])) ∧
    (tokenize [] = some (.ok [⟨.Eof, ⟨0, 1⟩⟩]) ∧
      covers 0 [⟨.Eof, ⟨0, 1⟩⟩] (byteLen []) = false) := by
  exact ⟨⟨rfl, by decide⟩, ⟨rfl, by decide⟩⟩

/-! ### The parser never panics when the token list contains `Eof`
(claim C10).  The invariant carried through every parser function is
`hasEof toks`: `Eof` is never consumed (`expect` is only called with
non-`Eof` token types and `ignore_spaces` only skips `Space`/`Newline`),
so a current token always exists. -/

theorem hasEof_ne_nil {ts : List Token} (h : hasEof ts = true) : ts ≠ [] := by
  cases ts with
  | nil => simp [hasEof] at h
  | cons t rest => simp

theorem hasEof_head {t : Token} {rest : List Token}
    (h : hasEof (t :: rest) = true) (hne : ¬ tokenType t = .Eof) :
    hasEof rest = true := by
  simp only [hasEof, List.any_cons, Bool.or_eq_true, decide_eq_true_eq] at h
  rcases h with h | h
  · exact absurd h hne
  · exact h

theorem unexpectedWith_err {α : Type} (extra : Nat) (s : PState)
    (h : s.toks ≠ []) :
    ∃ e, unexpectedWith (α := α) extra s = .err e s := by
  rcases s with ⟨toks, exp, fols⟩
  cases toks with
  | nil => exact absurd rfl h
  | cons t rest => exact ⟨.Unexpected t (esUnion exp extra), rfl⟩

theorem expect_total (tt : TokenType) (s : PState) (h : hasEof s.toks = true)
    (htt : tt ≠ .Eof) :
    ∃ mt s', expect tt s = .ok mt s' ∧ hasEof s'.toks = true ∧
      (∀ t, mt = some t → tokenType t = tt) := by
  rcases s with ⟨toks, exp, fols⟩
  cases toks with
  | nil => simp [hasEof] at h
  | cons t rest =>
    by_cases hm : tokenType t = tt
    · have hrest : hasEof rest = true := hasEof_head h (by rw [hm]; exact htt)
      cases rest with
      | nil => simp [hasEof] at hrest
      | cons t2 rest2 =>
        refine ⟨some t, ⟨t2 :: rest2, esNew, fols⟩, ?_, hrest, ?_⟩
        · simp only [expect, if_pos hm]
        · intro t' ht'
          cases ht'
          exact hm
    · refine ⟨none, ⟨t :: rest, esInsert exp tt, fols⟩, ?_, h, by simp⟩
      simp only [expect, if_neg hm]

theorem tokenType_ident {t : Token} (h : tokenType t = .Ident) :
    ∃ str, t.data = .Ident str := by
  rcases t with ⟨d, sp⟩
  cases d <;> first | exact ⟨_, rfl⟩ | simp [tokenType] at h

theorem expectIdent_total (s : PState) (h : hasEof s.toks = true) :
    ∃ mi s', expectIdent s = .ok mi s' ∧ hasEof s'.toks = true := by
  obtain ⟨mt, s1, he, h1, hty⟩ := expect_total .Ident s h (by decide)
  cases mt with
  | some t =>
    obtain ⟨str, hd⟩ := tokenType_ident (hty t rfl)
    exact ⟨some str, s1, by simp only [expectIdent, he, pbind, hd], h1⟩
  | none => exact ⟨none, s1, by simp only [expectIdent, he, pbind], h1⟩

theorem require_total (tt : TokenType) (s : PState) (h : hasEof s.toks = true)
    (htt : tt ≠ .Eof) :
    (∃ t s', require tt s = .ok t s' ∧ hasEof s'.toks = true) ∨
    (∃ e s', require tt s = .err e s') := by
  obtain ⟨mt, s1, he, h1, _⟩ := expect_total tt s h htt
  cases mt with
  | some t => exact Or.inl ⟨t, s1, by simp only [require, he, pbind], h1⟩
  | none =>
    obtain ⟨e, hu⟩ := unexpectedWith_err (α := Token) esNew s1 (hasEof_ne_nil h1)
    exact Or.inr ⟨e, s1, by simp only [require, he, pbind]; exact hu⟩

theorem requireIdent_total (s : PState) (h : hasEof s.toks = true) :
    (∃ str s', requireIdent s = .ok str s' ∧ hasEof s'.toks = true) ∨
    (∃ e s', requireIdent s = .err e s') := by
  obtain ⟨mi, s1, he, h1⟩ := expectIdent_total s h
  cases mi with
  | some str => exact Or.inl ⟨str, s1, by simp only [requireIdent, he, pbind], h1⟩
  | none =>
    obtain ⟨e, hu⟩ := unexpectedWith_err (α := List Char) esNew s1 (hasEof_ne_nil h1)
    exact Or.inr ⟨e, s1, by simp only [requireIdent, he, pbind]; exact hu⟩

theorem skipSpaces_total (ts : List Token) (h : hasEof ts = true) :
    ∃ ts', skipSpaces ts = some ts' ∧ hasEof ts' = true := by
  induction ts with
  | nil => simp [hasEof] at h
  | cons t rest ih =>
    by_cases hsp : isSpaceTok t = true
    · have hne : ¬ tokenType t = .Eof := by
        rcases t with ⟨d, sp⟩
        cases d <;> simp [isSpaceTok] at hsp <;> simp [tokenType]
      obtain ⟨ts', hsk, h'⟩ := ih (hasEof_head h hne)
      exact ⟨ts', by simp only [skipSpaces, if_pos hsp]; exact hsk, h'⟩
    · exact ⟨t :: rest, by simp only [skipSpaces, if_neg hsp], h⟩

theorem ignoreSpaces_total (s : PState) (h : hasEof s.toks = true) :
    ∃ s', ignoreSpaces s = .ok () s' ∧ hasEof s'.toks = true := by
  obtain ⟨ts', hsk, h'⟩ := skipSpaces_total s.toks h
  exact ⟨⟨ts', s.expected, s.follows⟩, by simp only [ignoreSpaces, hsk], h'⟩

/-- The five mutually recursive parser functions neither panic nor lose
the `Eof` sentinel, for any fuel, whenever the tokens contain `Eof`. -/
theorem parser_fns_no_panic : ∀ fuel : Nat,
    (∀ s : PState, hasEof s.toks = true →
      tryParseAtom fuel s ≠ .panic ∧
      ∀ a s', tryParseAtom fuel s = .ok a s' → hasEof s'.toks = true) ∧
    (∀ s : PState, hasEof s.toks = true →
      tryParseLam fuel s ≠ .panic ∧
      ∀ a s', tryParseLam fuel s = .ok a s' → hasEof s'.toks = true) ∧
    (∀ s : PState, hasEof s.toks = true →
      tryParseApp fuel s ≠ .panic ∧
      ∀ a s', tryParseApp fuel s = .ok a s' → hasEof s'.toks = true) ∧
    (∀ (acc : Ast.Expr) (s : PState), hasEof s.toks = true →
      appLoop fuel acc s ≠ .panic ∧
      ∀ a s', appLoop fuel acc s = .ok a s' → hasEof s'.toks = true) ∧
    (∀ s : PState, hasEof s.toks = true →
      parseExpr fuel s ≠ .panic ∧
      ∀ a s', parseExpr fuel s = .ok a s' → hasEof s'.toks = true) := by
  intro fuel
  induction fuel with
  | zero =>
    refine ⟨fun s _ => ?_, fun s _ => ?_, fun s _ => ?_, fun acc s _ => ?_,
      fun s _ => ?_⟩ <;>
      exact ⟨by simp [tryParseAtom, tryParseLam, tryParseApp, appLoop, parseExpr],
        fun a s' hok => absurd hok (by
          simp [tryParseAtom, tryParseLam, tryParseApp, appLoop, parseExpr])⟩
  | succ fuel ih =>
    obtain ⟨ihAtom, ihLam, ihApp, ihLoop, ihExpr⟩ := ih
    refine ⟨?_, ?_, ?_, ?_, ?_⟩
    · -- tryParseAtom
      intro s h
      obtain ⟨mi, s1, hei, h1⟩ := expectIdent_total s h
      cases mi with
      | some str =>
        obtain ⟨s2, hig, h2⟩ := ignoreSpaces_total s1 h1
        have heq : tryParseAtom (fuel+1) s =
            .ok (some (.Ident (String.mk str))) s2 := by
          simp only [tryParseAtom, hei, pbind, hig]
        exact ⟨by rw [heq]; simp,
          fun a s' hok => by rw [heq] at hok; cases hok; exact h2⟩
      | none =>
        obtain ⟨mlp, s2, hlp, h2, _⟩ := expect_total .LParen s1 h1 (by decide)
        cases mlp with
        | none =>
          have heq : tryParseAtom (fuel+1) s = .ok none s2 := by
            simp only [tryParseAtom, hei, pbind, hlp]
          exact ⟨by rw [heq]; simp,
            fun a s' hok => by rw [heq] at hok; cases hok; exact h2⟩
        | some tlp =>
          obtain ⟨s3, hig, h3⟩ := ignoreSpaces_total s2 h2
          have hPE := ihExpr (pushFollows EXPECTED_RPAREN s3) h3
          cases hr : parseExpr fuel (pushFollows EXPECTED_RPAREN s3) with
          | panic => exact absurd hr hPE.1
          | fuel =>
            have heq : tryParseAtom (fuel+1) s = .fuel := by
              simp only [tryParseAtom, hei, pbind, hlp, hig, hr, popRes]
            exact ⟨by rw [heq]; simp,
              fun a s' hok => by rw [heq] at hok; exact absurd hok (by simp)⟩
          | err e s4 =>
            have heq : tryParseAtom (fuel+1) s = .err e (popFollows s4) := by
              simp only [tryParseAtom, hei, pbind, hlp, hig, hr, popRes]
            exact ⟨by rw [heq]; simp,
              fun a s' hok => by rw [heq] at hok; exact absurd hok (by simp)⟩
          | ok inner s4 =>
            have h4 : hasEof (popFollows s4).toks = true := hPE.2 inner s4 hr
            rcases require_total .RParen (popFollows s4) h4 (by decide) with
              ⟨t5, s5, hrq, h5⟩ | ⟨e5, s5, hrq⟩
            · obtain ⟨s6, hig6, h6⟩ := ignoreSpaces_total s5 h5
              have heq : tryParseAtom (fuel+1) s =
                  .ok (some (.Parens inner)) s6 := by
                simp only [tryParseAtom, hei, pbind, hlp, hig, hr, popRes,
                  hrq, hig6]
              exact ⟨by rw [heq]; simp,
                fun a s' hok => by rw [heq] at hok; cases hok; exact h6⟩
            · have heq : tryParseAtom (fuel+1) s = .err e5 s5 := by
                simp only [tryParseAtom, hei, pbind, hlp, hig, hr, popRes, hrq]
              exact ⟨by rw [heq]; simp,
                fun a s' hok => by rw [heq] at hok; exact absurd hok (by simp)⟩
    · -- tryParseLam
      intro s h
      obtain ⟨mbs, s1, hbs, h1, _⟩ := expect_total .Backslash s h (by decide)
      cases mbs with
      | none =>
        have heq : tryParseLam (fuel+1) s = .ok none s1 := by
          simp only [tryParseLam, hbs, pbind]
        exact ⟨by rw [heq]; simp,
          fun a s' hok => by rw [heq] at hok; cases hok; exact h1⟩
      | some tbs =>
        obtain ⟨s2, hig, h2⟩ := ignoreSpaces_total s1 h1
        rcases requireIdent_total s2 h2 with ⟨arg, s3, hri, h3⟩ | ⟨e, s3, hri⟩
        · obtain ⟨s4, hig4, h4⟩ := ignoreSpaces_total s3 h3
          rcases require_total .RArrow s4 h4 (by decide) with
            ⟨t5, s5, hra, h5⟩ | ⟨e5, s5, hra⟩
          · obtain ⟨s6, hig6, h6⟩ := ignoreSpaces_total s5 h5
            have hPE := ihExpr s6 h6
            cases hr : parseExpr fuel s6 with
            | panic => exact absurd hr hPE.1
            | fuel =>
              have heq : tryParseLam (fuel+1) s = .fuel := by
                simp only [tryParseLam, hbs, pbind, hig, hri, hig4, hra,
                  hig6, hr]
              exact ⟨by rw [heq]; simp,
                fun a s' hok => by rw [heq] at hok; exact absurd hok (by simp)⟩
            | err e s7 =>
              have heq : tryParseLam (fuel+1) s = .err e s7 := by
                simp only [tryParseLam, hbs, pbind, hig, hri, hig4, hra,
                  hig6, hr]
              exact ⟨by rw [heq]; simp,
                fun a s' hok => by rw [heq] at hok; exact absurd hok (by simp)⟩
            | ok body s7 =>
              have h7 := hPE.2 body s7 hr
              have heq : tryParseLam (fuel+1) s =
                  .ok (some (.Lam (String.mk arg) body)) s7 := by
                simp only [tryParseLam, hbs, pbind, hig, hri, hig4, hra,
                  hig6, hr]
              exact ⟨by rw [heq]; simp,
                fun a s' hok => by rw [heq] at hok; cases hok; exact h7⟩
          · have heq : tryParseLam (fuel+1) s = .err e5 s5 := by
              simp only [tryParseLam, hbs, pbind, hig, hri, hig4, hra]
            exact ⟨by rw [heq]; simp,
              fun a s' hok => by rw [heq] at hok; exact absurd hok (by simp)⟩
        · have heq : tryParseLam (fuel+1) s = .err e s3 := by
            simp only [tryParseLam, hbs, pbind, hig, hri]
          exact ⟨by rw [heq]; simp,
            fun a s' hok => by rw [heq] at hok; exact absurd hok (by simp)⟩
    · -- tryParseApp
      intro s h
      have hAT := ihAtom (pushFollows (extendedFollows ATOM_START_SET s) s) h
      cases hr : tryParseAtom fuel
          (pushFollows (extendedFollows ATOM_START_SET s) s) with
      | panic => exact absurd hr hAT.1
      | fuel =>
        have heq : tryParseApp (fuel+1) s = .fuel := by
          simp only [tryParseApp, hr, popRes, pbind]
        exact ⟨by rw [heq]; simp,
          fun a s' hok => by rw [heq] at hok; exact absurd hok (by simp)⟩
      | err e s1 =>
        have heq : tryParseApp (fuel+1) s = .err e (popFollows s1) := by
          simp only [tryParseApp, hr, popRes, pbind]
        exact ⟨by rw [heq]; simp,
          fun a s' hok => by rw [heq] at hok; exact absurd hok (by simp)⟩
      | ok matom s1 =>
        have h1 : hasEof (popFollows s1).toks = true := hAT.2 matom s1 hr
        cases matom with
        | none =>
          have heq : tryParseApp (fuel+1) s = .ok none (popFollows s1) := by
            simp only [tryParseApp, hr, popRes, pbind]
          exact ⟨by rw [heq]; simp,
            fun a s' hok => by rw [heq] at hok; cases hok; exact h1⟩
        | some head =>
          have hL := ihLoop head (popFollows s1) h1
          have heq : tryParseApp (fuel+1) s =
              appLoop fuel head (popFollows s1) := by
            simp only [tryParseApp, hr, popRes, pbind]
          exact ⟨by rw [heq]; exact hL.1,
            fun a s' hok => by rw [heq] at hok; exact hL.2 a s' hok⟩
    · -- appLoop
      intro acc s h
      have hAT := ihAtom (pushFollows (extendedFollows ATOM_START_SET s) s) h
      cases hr : tryParseAtom fuel
          (pushFollows (extendedFollows ATOM_START_SET s) s) with
      | panic => exact absurd hr hAT.1
      | fuel =>
        have heq : appLoop (fuel+1) acc s = .fuel := by
          simp only [appLoop, hr, popRes, pbind]
        exact ⟨by rw [heq]; simp,
          fun a s' hok => by rw [heq] at hok; exact absurd hok (by simp)⟩
      | err e s1 =>
        have heq : appLoop (fuel+1) acc s = .err e (popFollows s1) := by
          simp only [appLoop, hr, popRes, pbind]
        exact ⟨by rw [heq]; simp,
          fun a s' hok => by rw [heq] at hok; exact absurd hok (by simp)⟩
      | ok matom s1 =>
        have h1 : hasEof (popFollows s1).toks = true := hAT.2 matom s1 hr
        cases matom with
        | some e =>
          have hL := ihLoop (Ast.Expr.App acc e) (popFollows s1) h1
          have heq : appLoop (fuel+1) acc s =
              appLoop fuel (.App acc e) (popFollows s1) := by
            simp only [appLoop, hr, popRes, pbind]
          exact ⟨by rw [heq]; exact hL.1,
            fun a s' hok => by rw [heq] at hok; exact hL.2 a s' hok⟩
        | none =>
          obtain ⟨tok, rest, htoks⟩ :
              ∃ tok rest, (popFollows s1).toks = tok :: rest := by
            cases hts : (popFollows s1).toks with
            | nil => rw [hts] at h1; simp [hasEof] at h1
            | cons tok rest => exact ⟨tok, rest, rfl⟩
          cases hf : (popFollows s1).follows.head? with
          | none =>
            obtain ⟨e, hu⟩ := unexpectedWith_err
              (α := Option Ast.Expr) esNew (popFollows s1)
              (by rw [htoks]; simp)
            have heq : appLoop (fuel+1) acc s = .err e (popFollows s1) := by
              simp only [appLoop, hr, popRes, pbind, htoks, hf]
              exact hu
            exact ⟨by rw [heq]; simp,
              fun a s' hok => by rw [heq] at hok; exact absurd hok (by simp)⟩
          | some fb =>
            by_cases hc : esContains fb (tokenType tok) = true
            · have heq : appLoop (fuel+1) acc s =
                  .ok (some acc) (popFollows s1) := by
                simp only [appLoop, hr, popRes, pbind, htoks, hf, hc,
                  if_true]
              exact ⟨by rw [heq]; simp,
                fun a s' hok => by rw [heq] at hok; cases hok; exact h1⟩
            · obtain ⟨e, hu⟩ := unexpectedWith_err
                (α := Option Ast.Expr) fb (popFollows s1)
                (by rw [htoks]; simp)
              have heq : appLoop (fuel+1) acc s = .err e (popFollows s1) := by
                simp only [appLoop, hr, popRes, pbind, htoks, hf, if_neg hc]
                exact hu
              exact ⟨by rw [heq]; simp,
                fun a s' hok => by rw [heq] at hok; exact absurd hok (by simp)⟩
    · -- parseExpr
      intro s h
      have hLam := ihLam s h
      cases hr : tryParseLam fuel s with
      | panic => exact absurd hr hLam.1
      | fuel =>
        have heq : parseExpr (fuel+1) s = .fuel := by
          simp only [parseExpr, hr, pbind]
        exact ⟨by rw [heq]; simp,
          fun a s' hok => by rw [heq] at hok; exact absurd hok (by simp)⟩
      | err e s1 =>
        have heq : parseExpr (fuel+1) s = .err e s1 := by
          simp only [parseExpr, hr, pbind]
        exact ⟨by rw [heq]; simp,
          fun a s' hok => by rw [heq] at hok; exact absurd hok (by simp)⟩
      | ok mlam s1 =>
        have h1 := hLam.2 mlam s1 hr
        cases mlam with
        | some e =>
          have heq : parseExpr (fuel+1) s = .ok e s1 := by
            simp only [parseExpr, hr, pbind]
          exact ⟨by rw [heq]; simp,
            fun a s' hok => by rw [heq] at hok; cases hok; exact h1⟩
        | none =>
          have hApp := ihApp s1 h1
          cases hr2 : tryParseApp fuel s1 with
          | panic => exact absurd hr2 hApp.1
          | fuel =>
            have heq : parseExpr (fuel+1) s = .fuel := by
              simp only [parseExpr, hr, pbind, hr2]
            exact ⟨by rw [heq]; simp,
              fun a s' hok => by rw [heq] at hok; exact absurd hok (by simp)⟩
          | err e s2 =>
            have heq : parseExpr (fuel+1) s = .err e s2 := by
              simp only [parseExpr, hr, pbind, hr2]
            exact ⟨by rw [heq]; simp,
              fun a s' hok => by rw [heq] at hok; exact absurd hok (by simp)⟩
          | ok mapp s2 =>
            have h2 := hApp.2 mapp s2 hr2
            cases mapp with
            | some e =>
              have heq : parseExpr (fuel+1) s = .ok e s2 := by
                simp only [parseExpr, hr, pbind, hr2]
              exact ⟨by rw [heq]; simp,
                fun a s' hok => by rw [heq] at hok; cases hok; exact h2⟩
            | none =>
              obtain ⟨e, hu⟩ := unexpectedWith_err
                (α := Ast.Expr) esNew s2 (hasEof_ne_nil h2)
              have heq : parseExpr (fuel+1) s = .err e s2 := by
                simp only [parseExpr, hr, pbind, hr2]
                exact hu
              exact ⟨by rw [heq]; simp,
                fun a s' hok => by rw [heq] at hok; exact absurd hok (by simp)⟩

/-- When the `atom atom*` repetition of `try_parse_app` stops (no atom
starts) and the current token is not in the top follow set, the loop
fails with `Unexpected { actual: current, expected: expected ∪
follows.top }`. -/
theorem appLoop_follow_mismatch (fuel : Nat) (acc : Ast.Expr) (s s1 : PState)
    (tok : Token) (rest : List Token) (fb : Nat)
    (hatom : popRes (tryParseAtom fuel
      (pushFollows (extendedFollows ATOM_START_SET s) s)) = .ok none s1)
    (htoks : s1.toks = tok :: rest)
    (hfb : s1.follows.head? = some fb)
    (hnot : esContains fb (tokenType tok) = false) :
    appLoop (fuel+1) acc s =
      .err (.Unexpected tok (esUnion s1.expected fb)) s1 := by
  simp only [appLoop, hatom, pbind, htoks, hfb, hnot, unexpectedWith,
    Bool.false_eq_true, if_false]

/-- Claim C5: the application repetition reports
`expected ∪ top-of-follows` at a token that can neither start an atom
nor follow the application; concretely, `"x \\y -> y"` fails at the
backslash at offset 2 with expected set `{Ident, LParen, Eof}`, and
`"(x \\y -> y)"` fails at the backslash at offset 3 with expected set
`{Ident, LParen, RParen}`. -/
theorem app_repetition_follow_errors :
    (∀ (fuel : Nat) (acc : Ast.Expr) (s s1 : PState) (tok : Token)
        (rest : List Token) (fb : Nat),
      popRes (tryParseAtom fuel
          (pushFollows (extendedFollows ATOM_START_SET s) s)) = .ok none s1 →
      s1.toks = tok :: rest →
      s1.follows.head? = some fb →
      esContains fb (tokenType tok) = false →
      appLoop (fuel+1) acc s =
        .err (.Unexpected tok (esUnion s1.expected fb)) s1) ∧
    (parseString "x \\y -> y" 100).map resErr =
      some (some (.Unexpected ⟨.Backslash, ⟨2, 1⟩⟩
        (esInsert (esInsert (esInsert esNew .Ident) .LParen) .Eof))) ∧
    (parseString "(x \\y -> y)" 100).map resErr =
      some (some (.Unexpected ⟨.Backslash, ⟨3, 1⟩⟩
        (esInsert (esInsert (esInsert esNew .Ident) .LParen) .RParen))) :=
  ⟨fun fuel acc s s1 tok rest fb h1 h2 h3 h4 =>
    appLoop_follow_mismatch fuel acc s s1 tok rest fb h1 h2 h3 h4,
    by rfl, by rfl⟩

/-- Witness for C5's general conjunct at a concrete state: the input
tokens `[Backslash, Eof]` under follow stack `[{Eof}]`. -/
theorem app_repetition_follow_errors_witness :
    appLoop 3 (.Ident "q")
      ⟨[⟨.Backslash, ⟨0, 1⟩⟩, ⟨.Eof, ⟨1, 1⟩⟩], esNew, [esInsert esNew .Eof]⟩ =
      .err (.Unexpected ⟨.Backslash, ⟨0, 1⟩⟩
          (esUnion 40 (esInsert esNew .Eof)))
        ⟨[⟨.Backslash, ⟨0, 1⟩⟩, ⟨.Eof, ⟨1, 1⟩⟩], 40, [esInsert esNew .Eof]⟩ :=
  app_repetition_follow_errors.1 2 (.Ident "q") _
    ⟨[⟨.Backslash, ⟨0, 1⟩⟩, ⟨.Eof, ⟨1, 1⟩⟩], 40, [esInsert esNew .Eof]⟩
    ⟨.Backslash, ⟨0, 1⟩⟩ [⟨.Eof, ⟨1, 1⟩⟩] (esInsert esNew .Eof)
    rfl rfl rfl rfl

set_option maxHeartbeats 2000000 in
/-- Claim C6: application is left-associative and lambda bodies extend
as far right as possible: `"a b c d"` parses as `((a b) c) d` and
`"\\x -> f x y z"` parses as `λx. ((f x) y) z`. -/
theorem app_left_assoc_lam_body_max :
    (parseString "a b c d" 100).map resOk =
      some (some (.App (.App (.App (.Ident "a") (.Ident "b")) (.Ident "c"))
        (.Ident "d"))) ∧
    (parseString "\\x -> f x y z" 100).map resOk =
      some (some (.Lam "x" (.App (.App (.App (.Ident "f") (.Ident "x"))
        (.Ident "y")) (.Ident "z")))) :=
  ⟨by rfl, by rfl⟩

/-- Claim C10: for every token vector containing an `Eof` token,
`parse_expr_eof` never reaches the `current_token` "ran out of input"
panic, whatever fuel is available. -/
theorem parse_expr_eof_no_panic (ts : List Token) (fuel : Nat)
    (h : hasEof ts = true) :
    parseExprEof fuel (initPState ts) ≠ .panic := by
  have hmain := (parser_fns_no_panic fuel).2.2.2.2
    (pushFollows (esInsert esNew .Eof) (initPState ts)) h
  intro hcontra
  rw [parseExprEof] at hcontra
  cases hr : parseExpr fuel (pushFollows (esInsert esNew .Eof) (initPState ts)) with
  | ok a s' => rw [hr] at hcontra; simp [popRes] at hcontra
  | err e s' => rw [hr] at hcontra; simp [popRes] at hcontra
  | panic => exact hmain.1 hr
  | fuel => rw [hr] at hcontra; simp [popRes] at hcontra

/-- Witness for C10 at the token vector `[Eof]` with fuel 5. -/
theorem parse_expr_eof_no_panic_witness :
    hasEof [⟨.Eof, ⟨0, 1⟩⟩] = true ∧
    parseExprEof 5 (initPState [⟨.Eof, ⟨0, 1⟩⟩]) ≠ .panic :=
  ⟨by decide, parse_expr_eof_no_panic [⟨.Eof, ⟨0, 1⟩⟩] 5 (by decide)⟩

/-! ### `get_line` (claim C8) and `get_by_offset` (claim C9) -/

/-- Claim C8 fails on the code: `line_end` only advances on characters
*after* the found position, so when the queried offset points at the
last character of a line the returned content misses the whole line.
For file "hello" (range [0,5)) at offset 4 the code returns line 1 with
*empty* content instead of "hello"; for file "a\nb" at offset 2 (and
"hello\n" at offset 5) the slice `content[line_start..line_end]` has
`line_start > line_end` and the code panics on an in-range offset. -/
theorem get_line_last_char_bug :
    getLine ⟨"test", 0, "hello".toList⟩ 4 = some ⟨0, 1, []⟩ ∧
    (⟨0, 1, []⟩ : Line) ≠ ⟨0, 1, "hello".toList⟩ ∧
    getLine ⟨"test", 0, "a\nb".toList⟩ 2 = none ∧
    getLine ⟨"test", 0, "hello\n".toList⟩ 5 = none :=
  ⟨by rfl, by decide, by rfl, by rfl⟩

theorem byteLen_pos {c : List Char} (h : c ≠ []) : 0 < byteLen c := by
  cases c with
  | nil => exact absurd rfl h
  | cons a t =>
    rw [byteLen_cons]
    have := Char.utf8Size_pos a
    omega

theorem buildFiles_go (regs : List (String × List Char)) :
    ∀ (addr : Nat) (fs : List SourceFile),
    List.foldl (fun sf r => newSourceFile sf r.1 r.2) ⟨addr, fs⟩ regs =
      ⟨totalSize addr regs, fs ++ buildFilesFrom addr regs⟩ := by
  induction regs with
  | nil => intro addr fs; simp [totalSize, buildFilesFrom]
  | cons r rest ih =>
    intro addr fs
    rcases r with ⟨n, c⟩
    simp only [List.foldl_cons]
    rw [show newSourceFile ⟨addr, fs⟩ n c =
      ⟨addr + byteLen c, fs ++ [⟨n, addr, c⟩]⟩ from rfl]
    rw [ih]
    simp [totalSize, buildFilesFrom]

theorem buildFiles_eq (regs : List (String × List Char)) :
    buildFiles regs = ⟨totalSize 0 regs, buildFilesFrom 0 regs⟩ := by
  rw [buildFiles, buildFiles_go regs 0 []]
  simp

theorem bff_length : ∀ (regs : List (String × List Char)) (addr : Nat),
    (buildFilesFrom addr regs).length = regs.length := by
  intro regs
  induction regs with
  | nil => intro addr; rfl
  | cons r rest ih =>
    intro addr
    rcases r with ⟨n, c⟩
    simp [buildFilesFrom, ih]

theorem totalSize_ge : ∀ (regs : List (String × List Char)) (addr : Nat),
    addr ≤ totalSize addr regs := by
  intro regs
  induction regs with
  | nil => intro addr; exact le_refl _
  | cons r rest ih =>
    intro addr
    rcases r with ⟨n, c⟩
    exact le_trans (Nat.le_add_right _ _) (ih (addr + byteLen c))

theorem bff_mem_bounds : ∀ (regs : List (String × List Char)) (addr : Nat)
    (f : SourceFile), f ∈ buildFilesFrom addr regs →
    addr ≤ f.start ∧ f.start + byteLen f.content ≤ totalSize addr regs := by
  intro regs
  induction regs with
  | nil => intro addr f hf; simp [buildFilesFrom] at hf
  | cons r rest ih =>
    intro addr f hf
    rcases r with ⟨n, c⟩
    rcases List.mem_cons.mp hf with hf | hf
    · subst hf
      exact ⟨le_refl _, totalSize_ge rest _⟩
    · obtain ⟨h1, h2⟩ := ih (addr + byteLen c) f hf
      exact ⟨le_trans (Nat.le_add_right _ _) h1, h2⟩

theorem bff_mem_content : ∀ (regs : List (String × List Char)) (addr : Nat)
    (f : SourceFile), f ∈ buildFilesFrom addr regs →
    ∃ r ∈ regs, f.content = r.2 := by
  intro regs
  induction regs with
  | nil => intro addr f hf; simp [buildFilesFrom] at hf
  | cons r rest ih =>
    intro addr f hf
    rcases r with ⟨n, c⟩
    rcases List.mem_cons.mp hf with hf | hf
    · subst hf
      exact ⟨(n, c), List.mem_cons_self _ _, rfl⟩
    · obtain ⟨r', hr', hc⟩ := ih (addr + byteLen c) f hf
      exact ⟨r', List.mem_cons_of_mem _ hr', hc⟩

theorem bff_get_zero : ∀ (regs : List (String × List Char)) (addr : Nat)
    (g : SourceFile), (buildFilesFrom addr regs).get? 0 = some g →
    g.start = addr := by
  intro regs addr g h
  cases regs with
  | nil => simp [buildFilesFrom] at h
  | cons r rest =>
    rcases r with ⟨n, c⟩
    simp [buildFilesFrom] at h
    rw [← h]

theorem bff_get_succ : ∀ (regs : List (String × List Char)) (addr i : Nat)
    (f g : SourceFile),
    (buildFilesFrom addr regs).get? i = some f →
    (buildFilesFrom addr regs).get? (i+1) = some g →
    g.start = f.start + byteLen f.content := by
  intro regs
  induction regs with
  | nil => intro addr i f g hf; simp [buildFilesFrom] at hf
  | cons r rest ih =>
    intro addr i f g hf hg
    rcases r with ⟨n, c⟩
    rw [show buildFilesFrom addr ((n, c) :: rest) =
      ⟨n, addr, c⟩ :: buildFilesFrom (addr + byteLen c) rest from rfl] at hf hg
    cases i with
    | zero =>
      rw [List.get?_cons_zero] at hf
      rw [List.get?_cons_succ] at hg
      cases hf
      show g.start = addr + byteLen c
      exact bff_get_zero rest _ g hg
    | succ i =>
      rw [List.get?_cons_succ] at hf hg
      exact ih (addr + byteLen c) i f g hf hg

theorem bff_get_last : ∀ (regs : List (String × List Char)) (addr i : Nat)
    (f : SourceFile),
    (buildFilesFrom addr regs).get? i = some f →
    (buildFilesFrom addr regs).get? (i+1) = none →
    f.start + byteLen f.content = totalSize addr regs := by
  intro regs
  induction regs with
  | nil => intro addr i f hf; simp [buildFilesFrom] at hf
  | cons r rest ih =>
    intro addr i f hf hg
    rcases r with ⟨n, c⟩
    rw [show buildFilesFrom addr ((n, c) :: rest) =
      ⟨n, addr, c⟩ :: buildFilesFrom (addr + byteLen c) rest from rfl] at hf hg
    cases i with
    | zero =>
      rw [List.get?_cons_zero] at hf
      rw [List.get?_cons_succ] at hg
      cases hf
      have hlen := bff_length rest (addr + byteLen c)
      rw [List.get?_eq_none] at hg
      have hrest : rest = [] := by
        cases rest with
        | nil => rfl
        | cons r2 rest2 =>
          rw [hlen] at hg
          simp at hg
      subst hrest
      show addr + byteLen c = totalSize addr [(n, c)]
      rfl
    | succ i =>
      rw [List.get?_cons_succ] at hf hg
      exact ih (addr + byteLen c) i f hf hg

theorem bff_unique : ∀ (regs : List (String × List Char)) (addr o : Nat)
    (f g : SourceFile),
    f ∈ buildFilesFrom addr regs → g ∈ buildFilesFrom addr regs →
    f.start ≤ o → o < f.start + byteLen f.content →
    g.start ≤ o → o < g.start + byteLen g.content → f = g := by
  intro regs
  induction regs with
  | nil => intro addr o f g hf; simp [buildFilesFrom] at hf
  | cons r rest ih =>
    intro addr o f g hf hg hf1 hf2 hg1 hg2
    rcases r with ⟨n, c⟩
    rcases List.mem_cons.mp hf with hf | hf <;>
      rcases List.mem_cons.mp hg with hg | hg
    · rw [hf, hg]
    · subst hf
      obtain ⟨hb, _⟩ := bff_mem_bounds rest (addr + byteLen c) g hg
      dsimp only at hf1 hf2
      omega
    · subst hg
      obtain ⟨hb, _⟩ := bff_mem_bounds rest (addr + byteLen c) f hf
      dsimp only at hg1 hg2
      omega
    · exact ih (addr + byteLen c) o f g hf hg hf1 hf2 hg1 hg2

/-- Correctness of the modelled `binary_search_by_key` loop: with
enough fuel it returns `Ok ix` with `files[ix].start = key`, or
`Err ix` with the keys strictly below `key` exactly at indices `< ix`
(described by the two boundary facts). -/
theorem bsGo_spec : ∀ (fuel : Nat) (files : List SourceFile)
    (key left right : Nat),
    right - left < fuel → right ≤ files.length → left ≤ right →
    (0 < left → ∀ f, files.get? (left - 1) = some f → f.start < key) →
    (right < files.length → ∀ f, files.get? right = some f → key < f.start) →
    (∃ ix, bsGo fuel files key left right = some (.inl ix) ∧
      ix < files.length ∧ ∀ f, files.get? ix = some f → f.start = key) ∨
    (∃ ix, bsGo fuel files key left right = some (.inr ix) ∧
      ix ≤ files.length ∧
      (0 < ix → ∀ f, files.get? (ix - 1) = some f → f.start < key) ∧
      (ix < files.length → ∀ f, files.get? ix = some f → key < f.start)) := by
  intro fuel
  induction fuel with
  | zero => intro files key left right h; omega
  | succ fuel ih =>
    intro files key left right hfuel hright hlr hL hR
    by_cases hlt : left < right
    · have hmlt : left + (right - left) / 2 < right := by omega
      have hmge : left ≤ left + (right - left) / 2 := by omega
      have hmlen : left + (right - left) / 2 < files.length :=
        lt_of_lt_of_le hmlt hright
      cases hgf : files.get? (left + (right - left) / 2) with
      | none =>
        rw [List.get?_eq_none] at hgf
        omega
      | some f =>
        by_cases h1 : f.start < key
        · have hrec := ih files key (left + (right - left) / 2 + 1) right
            (by omega) hright (by omega)
            (fun _ f' hf' => by
              rw [Nat.add_sub_cancel, hgf] at hf'
              cases hf'
              exact h1)
            hR
          have heq : bsGo (fuel+1) files key left right =
              bsGo fuel files key (left + (right - left) / 2 + 1) right := by
            simp only [bsGo, if_pos hlt, hgf, if_pos h1]
          rcases hrec with ⟨ix, hr, h2, h3⟩ | ⟨ix, hr, h2, h3, h4⟩
          · exact Or.inl ⟨ix, heq ▸ hr, h2, h3⟩
          · exact Or.inr ⟨ix, heq ▸ hr, h2, h3, h4⟩
        · by_cases h2 : key < f.start
          · have hrec := ih files key left (left + (right - left) / 2)
              (by omega) (le_of_lt hmlen) (by omega) hL
              (fun _ f' hf' => by
                rw [hgf] at hf'
                cases hf'
                exact h2)
            have heq : bsGo (fuel+1) files key left right =
                bsGo fuel files key left (left + (right - left) / 2) := by
              simp only [bsGo, if_pos hlt, hgf, if_neg h1, if_pos h2]
            rcases hrec with ⟨ix, hr, h3, h4⟩ | ⟨ix, hr, h3, h4, h5⟩
            · exact Or.inl ⟨ix, heq ▸ hr, h3, h4⟩
            · exact Or.inr ⟨ix, heq ▸ hr, h3, h4, h5⟩
          · left
            refine ⟨left + (right - left) / 2, ?_, hmlen, ?_⟩
            · simp only [bsGo, if_pos hlt, hgf, if_neg h1, if_neg h2]
            · intro f' hf'
              rw [hgf] at hf'
              cases hf'
              omega
    · right
      have hleq : left = right := by omega
      refine ⟨left, ?_, by omega, hL, ?_⟩
      · simp only [bsGo, if_neg hlt]
      · intro hlen f hf
        exact hR (hleq ▸ hlen) f (hleq ▸ hf)

/-- Claim C9 (amended): for every registry built by `new_source_file`
calls *with non-empty contents* and every offset below the total size,
`get_by_offset` returns the unique file whose half-open range contains
the offset, and it fails exactly when the offset is at or past the
end of registered source. -/
theorem get_by_offset_correct (regs : List (String × List Char))
    (hne : ∀ r ∈ regs, r.2 ≠ ([] : List Char)) (o : Nat) :
    (o < (buildFiles regs).next_addr →
      ∃ f, get_by_offset (buildFiles regs) o = some f ∧
        f.start ≤ o ∧ o < f.start + byteLen f.content ∧
        ∀ g ∈ (buildFiles regs).files,
          g.start ≤ o → o < g.start + byteLen g.content → g = f) ∧
    ((buildFiles regs).next_addr ≤ o →
      get_by_offset (buildFiles regs) o = none) := by
  rw [buildFiles_eq]
  constructor
  · intro ho
    replace ho : o < totalSize 0 regs := ho
    have hcont : ∀ f, f ∈ buildFilesFrom 0 regs → 0 < byteLen f.content := by
      intro f hf
      obtain ⟨r, hr, hc⟩ := bff_mem_content regs 0 f hf
      rw [hc]
      exact byteLen_pos (hne r hr)
    have hspec := bsGo_spec ((buildFilesFrom 0 regs).length + 1)
      (buildFilesFrom 0 regs) o 0 (buildFilesFrom 0 regs).length
      (by omega) (le_refl _) (Nat.zero_le _)
      (by intro h; omega)
      (by intro h; omega)
    rcases hspec with ⟨ix, hr, hixlen, hkey⟩ | ⟨ix, hr, hixle, hA, hB⟩
    · cases hgf : (buildFilesFrom 0 regs).get? ix with
      | none => rw [List.get?_eq_none] at hgf; omega
      | some f =>
        have hfs : f.start = o := hkey f hgf
        have hfmem : f ∈ buildFilesFrom 0 regs := List.get?_mem hgf
        refine ⟨f, ?_, le_of_eq hfs, ?_, ?_⟩
        · show (if totalSize 0 regs ≤ o then none else _) = some f
          rw [if_neg (by omega)]
          show (match bsGo _ _ _ _ _ with
            | some (.inl ix) => (buildFilesFrom 0 regs).get? ix
            | some (.inr ix) =>
              if ix = 0 then none else (buildFilesFrom 0 regs).get? (ix - 1)
            | none => none) = some f
          rw [hr]
          exact hgf
        · have := hcont f hfmem
          omega
        · intro g hg hg1 hg2
          exact bff_unique regs 0 o g f hg hfmem hg1 hg2 (le_of_eq hfs)
            (by have := hcont f hfmem; omega)
    · have hlenpos : 0 < (buildFilesFrom 0 regs).length := by
        rw [bff_length]
        cases regs with
        | nil =>
          rw [show totalSize 0 ([] : List (String × List Char)) = 0
            from rfl] at ho
          omega
        | cons r rest => simp
      have hix0 : ix ≠ 0 := by
        intro h0
        subst h0
        cases hg0 : (buildFilesFrom 0 regs).get? 0 with
        | none => rw [List.get?_eq_none] at hg0; omega
        | some g0 =>
          have := hB hlenpos g0 hg0
          have := bff_get_zero regs 0 g0 hg0
          omega
      have hixm1 : ix - 1 < (buildFilesFrom 0 regs).length := by omega
      cases hgf : (buildFilesFrom 0 regs).get? (ix - 1) with
      | none => rw [List.get?_eq_none] at hgf; omega
      | some f =>
        have hflt : f.start < o := hA (by omega) f hgf
        have hupper : o < f.start + byteLen f.content := by
          by_cases hixlt : ix < (buildFilesFrom 0 regs).length
          · cases hgx : (buildFilesFrom 0 regs).get? ix with
            | none => rw [List.get?_eq_none] at hgx; omega
            | some g =>
              have hog := hB hixlt g hgx
              have hsucc : g.start = f.start + byteLen f.content := by
                have hix : ix - 1 + 1 = ix := by omega
                exact bff_get_succ regs 0 (ix - 1) f g hgf (by rw [hix]; exact hgx)
              omega
          · have hix : ix = (buildFilesFrom 0 regs).length := by omega
            have hnone : (buildFilesFrom 0 regs).get? (ix - 1 + 1) = none := by
              rw [List.get?_eq_none]
              omega
            have := bff_get_last regs 0 (ix - 1) f hgf hnone
            omega
        have hfmem : f ∈ buildFilesFrom 0 regs := List.get?_mem hgf
        refine ⟨f, ?_, le_of_lt hflt, hupper, ?_⟩
        · show (if totalSize 0 regs ≤ o then none else _) = some f
          rw [if_neg (by omega)]
          show (match bsGo _ _ _ _ _ with
            | some (.inl ix) => (buildFilesFrom 0 regs).get? ix
            | some (.inr ix) =>
              if ix = 0 then none else (buildFilesFrom 0 regs).get? (ix - 1)
            | none => none) = some f
          rw [hr]
          show (if ix = 0 then none
            else (buildFilesFrom 0 regs).get? (ix - 1)) = some f
          rw [if_neg hix0]
          exact hgf
        · intro g hg hg1 hg2
          exact bff_unique regs 0 o g f hg hfmem hg1 hg2 (le_of_lt hflt) hupper
  · intro ho
    replace ho : totalSize 0 regs ≤ o := ho
    show (if totalSize 0 regs ≤ o then none else _) = none
    rw [if_pos ho]

/-- Witness for C9's amended statement at the one-file registry
`[("a", "x")]` and offset 0. -/
theorem get_by_offset_correct_witness :
    ((0:Nat) < (buildFiles [("a", ['x'])]).next_addr →
      ∃ f, get_by_offset (buildFiles [("a", ['x'])]) 0 = some f ∧
        f.start ≤ 0 ∧ 0 < f.start + byteLen f.content ∧
        ∀ g ∈ (buildFiles [("a", ['x'])]).files,
          g.start ≤ 0 → 0 < g.start + byteLen g.content → g = f) ∧
    ((buildFiles [("a", ['x'])]).next_addr ≤ 0 →
      get_by_offset (buildFiles [("a", ['x'])]) 0 = none) :=
  get_by_offset_correct [("a", ['x'])] (by decide) 0

/-- Counterexample to claim C9 as stated: registries built by
`new_source_file` calls may contain empty files, which duplicate the
`start` key; the midpoint probe of `binary_search_by_key` then lands on
an empty file whose half-open range contains no offset at all.  For the
registry `[("a",""), ("b",""), ("c","x")]` and offset 0 (which is below
the total size 1), the code returns the empty file "b" although only
"c" contains offset 0. -/
theorem get_by_offset_counterexample :
    get_by_offset (buildFiles [("a", []), ("b", []), ("c", ['x'])]) 0 =
      some ⟨"b", 0, []⟩ ∧
    ¬ ((0:Nat) < 0 + byteLen ([] : List Char)) ∧
    (0:Nat) < (buildFiles [("a", []), ("b", []), ("c", ['x'])]).next_addr :=
  ⟨by rfl, by decide, by decide⟩

end Spiddy
